import Mathlib

/-!
Verification of the web-crawler repository (package `crawler`, file
`crawler.go`, plus the `main.go` entry point).

The development embeds the parts of the program that the specification talks
about:

* a model of the Go standard library `net/url` operations the crawler uses
  (`url.Parse`, `(*URL).Parse` / `ResolveReference`, `resolvePath`,
  `(*URL).String`, `(*URL).Hostname`) over a `GoURL` record.  Percent-escape
  validation, control-character rejection and the `User` (userinfo) field are
  not modelled: the crawler never exercises them and no claim depends on them.
  The failure modes of parsing that are modelled are the ones the claims rely
  on (missing protocol scheme, colon in the first path segment);
* `formatURL` and `collectLinks` from `crawler.go` (the link
  extractor/normalizer), with Go's `panic` modelled as `Except.error`;
* the per-URL loop of a fetch worker (`getPages`);
* the result loop of `Crawl` (the `for`/`select` at lines 112-153);
* a counter/publish transition system for the `sync.WaitGroup` discipline of
  `Crawl` (lines 88-153), and a sequentialisation of the whole crawl used to
  evaluate concrete executions;
* the worker-count validation of `main.go`.
-/

/-! ## Character-list utilities (models of Go `strings` helpers) -/

/-- Membership test for a character in a character list (Go `strings.Contains`
for a one-byte needle). -/
def containsC (c : Char) : List Char → Bool
  | [] => false
  | x :: xs => x = c || containsC c xs

/-- Cut at the first occurrence of `sep` (Go `strings.Cut` / `net/url`'s
`split`): returns the part before, the part after, and whether `sep` was
found. -/
def cutFirst (sep : Char) : List Char → List Char × List Char × Bool
  | [] => ([], [], false)
  | x :: xs =>
    if x = sep then ([], xs, true)
    else
      let r := cutFirst sep xs
      (x :: r.1, r.2.1, r.2.2)

/-- Split on every occurrence of `sep` (Go `strings.Split`).  Always returns a
non-empty list of separator-free segments. -/
def splitOnC (sep : Char) : List Char → List (List Char)
  | [] => [[]]
  | x :: xs =>
    match splitOnC sep xs with
    | [] => [[]]
    | h :: t => if x = sep then [] :: h :: t else (x :: h) :: t

/-- Join segments with `sep` between them (Go `strings.Join`). -/
def joinC (sep : Char) : List (List Char) → List Char
  | [] => []
  | [x] => x
  | x :: y :: xs => x ++ sep :: joinC sep (y :: xs)

/-- The part of `l` up to and including its last `'/'` (Go
`base[:strings.LastIndex(base, "/")+1]`); empty when there is no slash. -/
def upToLastSlash (l : List Char) : List Char :=
  (l.reverse.dropWhile (fun c => !(c = '/'))).reverse

/-- Remove one leading `'/'` if present (Go `strings.TrimPrefix(s, "/")`). -/
def trimLeadSlash : List Char → List Char
  | '/' :: rest => rest
  | l => l

/-- The segment of `l` after its last occurrence of `c`; `l` itself when `c`
does not occur. -/
def afterLastC (c : Char) (l : List Char) : List Char :=
  (l.reverse.takeWhile (fun x => !(x = c))).reverse

/-! ## The URL record (model of Go `net/url.URL`) -/

/-- Model of Go `net/url.URL` (as vendored by this dep-era repository, Go
1.10/1.11) restricted to the fields the crawler can reach: `Scheme`,
`Opaque`, `Host`, `Path`, `ForceQuery`, `RawQuery`, `Fragment`.  `User`,
`RawPath` and `RawFragment` are not modelled (no escaping in the model). -/
structure GoURL where
  scheme : String := ""
  opaq : String := ""
  host : String := ""
  path : String := ""
  forceQuery : Bool := false
  rawQuery : String := ""
  fragment : String := ""
deriving DecidableEq, Repr

/-! ## Scheme extraction (model of `net/url.getScheme`) -/

/-- ASCII letter test, as in `getScheme`. -/
def isAlphaC (c : Char) : Bool := ('a' ≤ c && c ≤ 'z') || ('A' ≤ c && c ≤ 'Z')

/-- ASCII digit test, as in `getScheme`. -/
def isDigitC (c : Char) : Bool := '0' ≤ c && c ≤ '9'

/-- Model of `net/url.getScheme`: scans for a scheme terminated by `':'`.
`acc` holds the characters scanned so far (`rawURL[:i]`), `whole` is the whole
input returned when no scheme is present. -/
def getSchemeGo (whole : List Char) : List Char → List Char → Except String (List Char × List Char)
  | _, [] => .ok ([], whole)
  | acc, c :: rest =>
    if isAlphaC c then getSchemeGo whole (acc ++ [c]) rest
    else if isDigitC c || c = '+' || c = '-' || c = '.' then
      if acc = [] then .ok ([], whole) else getSchemeGo whole (acc ++ [c]) rest
    else if c = ':' then
      if acc = [] then .error "missing protocol scheme"
      else .ok (acc, rest)
    else .ok ([], whole)

/-! ## Parsing (model of `net/url.parse` and `net/url.Parse`) -/

/-- Query split step of `parse`: handles the trailing-`?` `ForceQuery` special
case, otherwise cuts at the first `'?'`.  Returns (rest, forceQuery,
rawQuery). -/
def querySplit (rest : List Char) : List Char × Bool × List Char :=
  if rest.getLast? = some '?' && !(containsC '?' rest.dropLast) then
    (rest.dropLast, true, [])
  else
    let r := cutFirst '?' rest
    (r.1, false, r.2.1)

/-- Model of `net/url.parseAuthority`: userinfo (the part before the last
`'@'`) is dropped rather than recorded, and host validation is omitted. -/
def parseAuthority (authority : List Char) : List Char :=
  if containsC '@' authority then afterLastC '@' authority else authority

/-- The part of `net/url.parse` that follows scheme extraction: query split,
opaque/rootless handling, authority extraction and path recording. -/
def parseGoAfterScheme (scheme : List Char) (afterScheme : List Char) :
    Except String GoURL :=
  let q := querySplit afterScheme
  let rest := q.1
  let forceQuery := q.2.1
  let rawQuery : String := ⟨q.2.2⟩
  if rest.head? ≠ some '/' then
    if scheme ≠ [] then
      .ok { scheme := ⟨scheme⟩, opaq := ⟨rest⟩, forceQuery, rawQuery }
    else if containsC ':' (cutFirst '/' rest).1 then
      .error "first path segment in URL cannot contain colon"
    else
      .ok { path := ⟨rest⟩, forceQuery, rawQuery }
  else
    if (scheme ≠ [] || !(rest.take 3 = ['/', '/', '/'])) &&
        rest.take 2 = ['/', '/'] then
      let r := cutFirst '/' (rest.drop 2)
      let authority := r.1
      let pathCs : List Char := if r.2.2 then '/' :: r.2.1 else []
      .ok { scheme := ⟨scheme⟩, host := ⟨parseAuthority authority⟩,
            path := ⟨pathCs⟩, forceQuery, rawQuery }
    else
      .ok { scheme := ⟨scheme⟩, path := ⟨rest⟩, forceQuery, rawQuery }

/-- Model of `net/url.parse` (with `viaRequest = false`, Go 1.10/1.11 as
vendored by this repository), operating on the fragment-free part of the
URL. -/
def parseGo (raw : List Char) : Except String GoURL :=
  if raw = ['*'] then .ok { path := "*" }
  else
    match getSchemeGo raw [] raw with
    | .error e => .error e
    | .ok (schemeCs, afterScheme) =>
      parseGoAfterScheme (schemeCs.map Char.toLower) afterScheme

/-- Model of `net/url.Parse`: splits the fragment at the first `'#'`, parses
the rest, then records the fragment. -/
def urlParse (rawURL : String) : Except String GoURL :=
  let r := cutFirst '#' rawURL.data
  match parseGo r.1 with
  | .error e => .error e
  | .ok u => .ok { u with fragment := ⟨r.2.1⟩ }

/-! ## Path resolution (model of `net/url.resolvePath`) -/

/-- Dot-segment removal pass of `resolvePath` (`"."` dropped, `".."` pops). -/
def dotSegs : List (List Char) → List (List Char) → List (List Char)
  | dst, [] => dst
  | dst, e :: rest =>
    if e = ['.'] then dotSegs dst rest
    else if e = ['.', '.'] then dotSegs dst.dropLast rest
    else dotSegs (dst ++ [e]) rest

/-- Model of `net/url.resolvePath`: merges `ref` against `base` and removes
`"."`/`".."` segments. -/
def resolvePath (base ref : List Char) : List Char :=
  let full :=
    if ref = [] then base
    else if ref.head? ≠ some '/' then upToLastSlash base ++ ref
    else ref
  if full = [] then []
  else
    let src := splitOnC '/' full
    let dst := dotSegs [] src
    let dst := if src.getLast? = some ['.'] || src.getLast? = some ['.', '.'] then
        dst ++ [[]]
      else dst
    '/' :: trimLeadSlash (joinC '/' dst)

/-! ## Reference resolution (model of `(*URL).ResolveReference` and
`(*URL).Parse`) -/

/-- Model of `(*URL).ResolveReference` (u is the base, ref the reference). -/
def resolveReference (u ref : GoURL) : GoURL :=
  let url := ref
  let url := if ref.scheme = "" then { url with scheme := u.scheme } else url
  if ref.scheme ≠ "" || ref.host ≠ "" then
    { url with path := ⟨resolvePath ref.path.data []⟩ }
  else if ref.opaq ≠ "" then
    { url with host := "", path := "" }
  else
    let url :=
      if ref.path = "" && ref.rawQuery = "" then
        let url := { url with rawQuery := u.rawQuery }
        if ref.fragment = "" then { url with fragment := u.fragment } else url
      else url
    { url with host := u.host, path := ⟨resolvePath u.path.data ref.path.data⟩ }

/-- Model of `(*URL).Parse`: parse the reference and resolve it against `u`. -/
def urlParseRef (u : GoURL) (ref : String) : Except String GoURL :=
  match urlParse ref with
  | .error e => .error e
  | .ok refURL => .ok (resolveReference u refURL)

/-! ## Serialisation (model of `(*URL).String`) -/

/-- Query component of `String()`: `"?" ++ RawQuery` when `ForceQuery` is set
or the query is non-empty. -/
def queryPartC (u : GoURL) : List Char :=
  if u.forceQuery || u.rawQuery ≠ "" then '?' :: u.rawQuery.data else []

/-- Fragment component of `String()`. -/
def fragPartC (u : GoURL) : List Char :=
  if u.fragment ≠ "" then '#' :: u.fragment.data else []

/-- Model of `(*URL).String` as a character list (userinfo and escaping
omitted, matching the `GoURL` model). -/
def urlStringC (u : GoURL) : List Char :=
  let buf : List Char := if u.scheme ≠ "" then u.scheme.data ++ [':'] else []
  if u.opaq ≠ "" then buf ++ u.opaq.data ++ queryPartC u ++ fragPartC u
  else
    let buf :=
      if u.scheme ≠ "" || u.host ≠ "" then
        (if u.host ≠ "" || u.path ≠ "" then buf ++ ['/', '/'] else buf) ++ u.host.data
      else buf
    let buf :=
      if u.path ≠ "" && u.path.data.head? ≠ some '/' && u.host ≠ "" then buf ++ ['/']
      else buf
    let buf :=
      if buf = [] && containsC ':' (cutFirst '/' u.path.data).1 then buf ++ ['.', '/']
      else buf
    buf ++ u.path.data ++ queryPartC u ++ fragPartC u

/-- Model of `(*URL).String`. -/
def urlString (u : GoURL) : String := ⟨urlStringC u⟩

/-! ## Hostname (model of `(*URL).Hostname`) -/

/-- Model of `net/url.validOptionalPort`. -/
def validOptionalPort : List Char → Bool
  | [] => true
  | ':' :: rest => rest.all isDigitC
  | _ => false

/-- Model of `net/url.splitHostPort`, returning only the host part. -/
def splitHostPortHost (hostPort : List Char) : List Char :=
  let r := cutFirst ':' hostPort.reverse
  let host :=
    if r.2.2 && validOptionalPort (':' :: r.1.reverse) then r.2.1.reverse
    else hostPort
  if host.head? = some '[' && host.getLast? = some ']' then (host.drop 1).dropLast
  else host

/-- Model of `(*URL).Hostname`. -/
def goHostname (u : GoURL) : String := ⟨splitHostPortHost u.host.data⟩

/-! ## The link extractor (`formatURL` and `collectLinks` from `crawler.go`) -/

/-- Model of `formatURL` (crawler.go lines 219-230).  The Go function calls
`panic(err)` when `pageURL.Parse(rawURL)` fails; the panic is modelled as
`Except.error`.  On success it keeps only `http`/`https` URLs and strips the
fragment. -/
def formatURL (pageURL : GoURL) (rawURL : String) : Except String (Option GoURL) :=
  match urlParseRef pageURL rawURL with
  | .error e => .error e
  | .ok rel =>
    if rel.scheme = "http" ∨ rel.scheme = "https" then
      .ok (some { rel with fragment := "" })
    else
      .ok none

/-- An HTML token as produced by `html.NewTokenizer`/`t.Token()`: its tag or
text data and its attribute list.  The token stream is modelled as a list; the
end of the list plays the role of `html.ErrorToken`. -/
structure HTok where
  data : String
  attrs : List (String × String)

/-- Inner attribute loop of `collectLinks` (crawler.go lines 206-213): every
`href` attribute of an anchor token is formatted, keeping non-nil results.  A
panic in `formatURL` propagates. -/
def collectAttrs (pageURL : GoURL) : List GoURL → List (String × String) →
    Except String (List GoURL)
  | links, [] => .ok links
  | links, (key, val) :: rest =>
    if key = "href" then
      match formatURL pageURL val with
      | .error e => .error e
      | .ok (some link) => collectAttrs pageURL (links ++ [link]) rest
      | .ok none => collectAttrs pageURL links rest
    else collectAttrs pageURL links rest

/-- Token loop of `collectLinks` (crawler.go lines 199-215). -/
def collectLinksGo (pageURL : GoURL) : List GoURL → List HTok →
    Except String (List GoURL)
  | links, [] => .ok links
  | links, tok :: rest =>
    if tok.data = "a" then
      match collectAttrs pageURL links tok.attrs with
      | .error e => .error e
      | .ok links2 => collectLinksGo pageURL links2 rest
    else collectLinksGo pageURL links rest

/-- Model of `collectLinks` (crawler.go lines 195-216) over a token stream. -/
def collectLinks (pageURL : GoURL) (toks : List HTok) : Except String (List GoURL) :=
  collectLinksGo pageURL [] toks

/-- The `href` attribute values of one token. -/
def attrHrefs (t : HTok) : List String :=
  (t.attrs.filter (fun a => a.1 = "href")).map Prod.snd

/-- The `href` attribute values of the anchor tokens of a stream, in document
order (the inputs `collectLinks` passes to `formatURL`). -/
def hrefsOf : List HTok → List String
  | [] => []
  | t :: rest => (if t.data = "a" then attrHrefs t else []) ++ hrefsOf rest

/-- The `href` values of an attribute list, in order. -/
def hrefVals : List (String × String) → List String
  | [] => []
  | (k, v) :: rest => if k = "href" then v :: hrefVals rest else hrefVals rest

/-! ## Pages and the fetch worker (model of `getPages`, crawler.go 156-192) -/

/-- Model of `Page` (crawler.go lines 24-27). -/
structure CPage where
  url : GoURL
  links : List GoURL
deriving DecidableEq, Repr

/-- The outcome of one `httpClient.Get` call, as observed by a worker: either
`Get` returned an error (with its `net.Error` timeout classification), or a
response with a status code, the success of `io.Copy` on the body, the success
of `Body.Close()`, and the body's token stream. -/
inductive FetchRes where
  | getErr (timeout : Bool)
  | resp (statusCode : Nat) (copyOk : Bool) (closeOk : Bool) (body : List HTok)

/-- An error sent on a worker's error channel, tagged with its source. -/
inductive WorkerErr where
  | transport (timeout : Bool)
  | httpStatus (url : String) (code : Nat)
  | bodyRead
  | bodyClose
deriving DecidableEq, Repr

/-- What a single worker produced from the sequence of URLs its frontier
delivered: the pages and errors it emitted, and whether it stopped because the
frontier was exhausted (`range` ended) rather than by an early `return`. -/
structure WorkerOut where
  pages : List CPage
  errs : List WorkerErr
  exhausted : Bool
deriving DecidableEq, Repr

/-- Model of the `for url := range urls` loop of `getPages` (crawler.go lines
164-188) over the sequence of URLs delivered on the frontier channel.  A
`Get` error, an `io.Copy` error or a `Body.Close` error makes the goroutine
`return` (early stop); a status `>= 400` emits an error and `continue`s; a
panic inside `collectLinks` propagates as `Except.error`. -/
def getPagesRun (fetch : String → FetchRes) : List GoURL → Except String WorkerOut
  | [] => .ok ⟨[], [], true⟩
  | u :: rest =>
    match fetch (urlString u) with
    | .getErr t => .ok ⟨[], [.transport t], false⟩
    | .resp code copyOk closeOk body =>
      if 400 ≤ code then
        (getPagesRun fetch rest).map fun o =>
          { o with errs := .httpStatus (urlString u) code :: o.errs }
      else if copyOk = false then .ok ⟨[], [.bodyRead], false⟩
      else if closeOk = false then .ok ⟨[], [.bodyClose], false⟩
      else
        match collectLinks u body with
        | .error e => .error e
        | .ok links =>
          (getPagesRun fetch rest).map fun o =>
            { o with pages := ⟨u, links⟩ :: o.pages }

/-- A fetch outcome that does not make the worker return early: an HTTP error
status, or a success whose body is read and closed without error and whose
links extract without panic. -/
def continuableFetch (fetch : String → FetchRes) (u : GoURL) : Bool :=
  match fetch (urlString u) with
  | .getErr _ => false
  | .resp code copyOk closeOk body =>
    decide (400 ≤ code) || (copyOk && closeOk && (collectLinks u body).isOk)

/-! ## The result loop (model of `Crawl`'s `for`/`select`, crawler.go 112-153) -/

/-- Classification of an error received on the merged error channel, as
tested by lines 141-148: `errors.Cause(err) == ErrHttpStatusCode`, a
`net.Error` with `Timeout()`, or anything else. -/
inductive ErrClass where
  | httpStatus
  | netTimeout
  | other
deriving DecidableEq, Repr

/-- One event delivered to the result loop: a page from `pageChan` (with the
outcome of the `out.Write` that the loop will perform for it), an error from
`errChan`, or the closing of the merged channels. -/
inductive LoopEvent where
  | pageEv (url : GoURL) (links : List GoURL) (writeOk : Bool)
  | errEv (c : ErrClass)
  | chansClosed
deriving Repr

/-- How the result loop returned. -/
inductive LoopExit where
  | success
  | writeFail
  | fatal (c : ErrClass)
deriving DecidableEq, Repr

/-- The dispatcher state owned by the result loop: the `cache` of admitted URL
strings and the WaitGroup counter. -/
structure LoopSt where
  cache : List String
  outstanding : Nat
deriving DecidableEq, Repr

/-- Model of the link-admission loop (crawler.go lines 123-134): every link
whose hostname equals the seed's hostname and whose string form is not in the
cache is added to the cache and increments the counter (`wg.Add(1)` before the
publishing goroutine is spawned). -/
def admitLinks (seedHost : String) : LoopSt → List GoURL → LoopSt
  | st, [] => st
  | st, link :: rest =>
    if goHostname link = seedHost ∧ ¬ (urlString link) ∈ st.cache then
      admitLinks seedHost ⟨st.cache ++ [urlString link], st.outstanding + 1⟩ rest
    else admitLinks seedHost st rest

/-- Model of the result loop (crawler.go lines 112-153) over a sequence of
merged-channel events.  `none` means the loop is still blocked waiting for
events when the list runs out. -/
def resultLoop (seedHost : String) : LoopSt → List LoopEvent → Option LoopExit
  | _, [] => none
  | _, .chansClosed :: _ => some .success
  | st, .pageEv _ links writeOk :: rest =>
    if writeOk = false then some .writeFail
    else
      let st := admitLinks seedHost st links
      resultLoop seedHost ⟨st.cache, st.outstanding - 1⟩ rest
  | st, .errEv c :: rest =>
    match c with
    | .httpStatus => resultLoop seedHost ⟨st.cache, st.outstanding - 1⟩ rest
    | .netTimeout => resultLoop seedHost ⟨st.cache, st.outstanding - 1⟩ rest
    | .other => some (.fatal .other)

/-! ## The WaitGroup / frontier transition system (crawler.go 88-153)

The concurrent structure of `Crawl` is modelled as a transition system.  One
step is one of: a pending publisher goroutine delivering its URL into the
`newURLs` channel; the result loop processing one page event (admitting `k`
new links, i.e. `k` times `wg.Add(1)` followed by spawning a publisher, then
one `wg.Done()`); the result loop absorbing one recoverable error
(`wg.Done()`); the result loop returning a fatal error; the closer goroutine
returning from `wg.Wait()` and closing the channel; and the loop returning
`nil` after the merged channels close.  The counter updates of one loop
iteration are one step: they are performed sequentially by the single loop
goroutine, and the counter is only read (by `wg.Wait`) between iterations. -/

/-- State of the transition system: the WaitGroup counter, the number of
spawned publisher goroutines that have not yet delivered into `newURLs`, the
number of URLs delivered but not yet resolved by a `wg.Done()`, whether
`newURLs` has been closed, and whether/how `Crawl`'s loop has returned
(`some true` = returned `nil`, `some false` = returned an error). -/
structure CrawlSt where
  counter : Nat
  pendingPub : Nat
  queued : Nat
  closed : Bool
  exited : Option Bool
deriving DecidableEq, Repr

/-- The initial state (crawler.go lines 92-95): `wg.Add(1)` and one publisher
goroutine holding the seed. -/
def crawlInit : CrawlSt := ⟨1, 1, 0, false, none⟩

/-- The events of the transition system. -/
inductive CrawlEv where
  | deliver
  | pageEv (admitted : Nat)
  | recovErr
  | fatalErr
  | closeCh
  | normalExit
deriving DecidableEq, Repr

/-- One step of the transition system; `none` when the event is not enabled in
the given state. -/
def crawlStep (s : CrawlSt) : CrawlEv → Option CrawlSt
  | .deliver =>
    if s.closed = false ∧ 0 < s.pendingPub then
      some { s with pendingPub := s.pendingPub - 1, queued := s.queued + 1 }
    else none
  | .pageEv k =>
    if s.exited = none ∧ 0 < s.queued then
      some { s with counter := s.counter + k - 1, pendingPub := s.pendingPub + k,
                    queued := s.queued - 1 }
    else none
  | .recovErr =>
    if s.exited = none ∧ 0 < s.queued then
      some { s with counter := s.counter - 1, queued := s.queued - 1 }
    else none
  | .fatalErr =>
    if s.exited = none ∧ 0 < s.queued then some { s with exited := some false }
    else none
  | .closeCh =>
    if s.counter = 0 ∧ s.closed = false then some { s with closed := true }
    else none
  | .normalExit =>
    if s.exited = none ∧ s.closed = true then some { s with exited := some true }
    else none

/-- Run the transition system from a state through a list of events. -/
def crawlRunFrom (s : CrawlSt) : List CrawlEv → Option CrawlSt
  | [] => some s
  | e :: evs =>
    match crawlStep s e with
    | none => none
    | some s2 => crawlRunFrom s2 evs

/-- Run the transition system from the initial state of `Crawl`. -/
def crawlRun (evs : List CrawlEv) : Option CrawlSt := crawlRunFrom crawlInit evs

/-! ## A sequential execution of `Crawl` (one worker, FIFO frontier)

Used to evaluate whole crawls on concrete inputs.  The schedule it fixes
(fetch one frontier URL, let the result loop fully process the resulting page
before the next fetch) is a legal interleaving of the concurrent code, and the
cache/admission logic is the one of crawler.go lines 123-134 with the cache
starting empty (line 89) and the frontier seeded with the parsed URL (lines
92-95). -/

/-- Sequential crawl work-list loop.  `fetch` returns `none` for a transport
error and `some (status, body)` otherwise; fuel bounds the recursion. -/
def crawlSeqGo (fetch : String → Option (Nat × List HTok)) (seedHost : String) :
    Nat → List GoURL → List String → Except String (List CPage)
  | 0, _, _ => .error "out of fuel"
  | _ + 1, [], _ => .ok []
  | fuel + 1, u :: frontier, cache =>
    match fetch (urlString u) with
    | none => .error "transport error"
    | some (code, body) =>
      if 400 ≤ code then crawlSeqGo fetch seedHost fuel frontier cache
      else
        match collectLinks u body with
        | .error e => .error e
        | .ok links =>
          let st := admitLinks seedHost ⟨cache, 0⟩ links
          let admitted := links.filter fun link =>
            goHostname link = seedHost ∧ ¬ (urlString link) ∈ cache
          match crawlSeqGo fetch seedHost fuel (frontier ++ admitted) st.cache with
          | .error e => .error e
          | .ok pages => .ok (⟨u, links⟩ :: pages)

/-- Sequential execution of `Crawl` (crawler.go line 53): parse the seed, then
run the work list from the frontier `[seed]` and an empty cache. -/
def crawlSeq (fetch : String → Option (Nat × List HTok)) (rawURL : String)
    (fuel : Nat) : Except String (List CPage) :=
  match urlParse rawURL with
  | .error e => .error e
  | .ok seed => crawlSeqGo fetch (goHostname seed) fuel [seed] []

/-! ## Entry-point validation (main.go lines 13-29, crawler.go lines 83-86) -/

/-- Model of `strconv.Atoi` on the relevant inputs: an optional sign followed
by at least one decimal digit (the 64-bit range check is omitted). -/
def goAtoi (s : String) : Except String Int :=
  let digits (l : List Char) : Except String Nat :=
    if l = [] then .error "invalid syntax"
    else if l.all isDigitC then
      .ok (l.foldl (fun n c => 10 * n + (c.toNat - '0'.toNat)) 0)
    else .error "invalid syntax"
  match s.data with
  | '-' :: rest => (digits rest).map fun n => -(n : Int)
  | '+' :: rest => (digits rest).map fun n => (n : Int)
  | l => (digits l).map fun n => (n : Int)

/-- Model of the worker-count validation of `main` (main.go lines 14-21): the
value is rejected when `strconv.Atoi` fails or when it equals zero. -/
def mainWorkersCheck (s : String) : Except String Int :=
  match goAtoi s with
  | .error _ => .error "env var WORKERS is non-numeric"
  | .ok w =>
    if w = 0 then .error "env var WORKERS must be greater than zero"
    else .ok w

/-- Number of workers `Crawl` starts (crawler.go line 104:
`for i := 0; i < c.workerCount; i++`). -/
def workersSpawned (workerCount : Int) : Nat := workerCount.toNat

/-- Model of the seed validation at the top of `Crawl` (crawler.go lines
83-86): the only check applied to the raw seed string is `url.Parse`. -/
def crawlSeedCheck (rawURL : String) : Except String GoURL :=
  match urlParse rawURL with
  | .error err => .error err
  | .ok seedURL => .ok seedURL

/-! ## Invariants of the WaitGroup / frontier transition system (claim C1) -/

/-- The counter accounting invariant of `Crawl`: because `wg.Add(1)` happens
before the publisher goroutine is spawned and `wg.Done()` happens only after
an item is fully handled, the counter always equals the pending publishes plus
the delivered-but-unresolved items; the channel is closed only at counter
zero; and a `nil` return happens only after the close. -/
def CrawlInv (s : CrawlSt) : Prop :=
  s.counter = s.pendingPub + s.queued ∧
  (s.closed = true → s.counter = 0) ∧
  (s.exited = some true → s.closed = true)

theorem crawlInit_inv : CrawlInv crawlInit := by
  refine ⟨rfl, ?_, ?_⟩ <;> intro h <;> simp [crawlInit] at h

theorem crawlStep_inv {s : CrawlSt} {e : CrawlEv} {s2 : CrawlSt}
    (hstep : crawlStep s e = some s2) (hinv : CrawlInv s) : CrawlInv s2 := by
  obtain ⟨hc, hcl, hex⟩ := hinv
  cases e with
  | deliver =>
    simp only [crawlStep] at hstep
    split at hstep
    · obtain rfl : _ = s2 := by injection hstep
      rename_i hg
      refine ⟨?_, fun h => hcl h, fun h => hex h⟩
      show s.counter = s.pendingPub - 1 + (s.queued + 1)
      omega
    · exact Option.noConfusion hstep
  | pageEv k =>
    simp only [crawlStep] at hstep
    split at hstep
    · obtain rfl : _ = s2 := by injection hstep
      rename_i hg
      refine ⟨?_, fun h => ?_, fun h => ?_⟩
      · show s.counter + k - 1 = s.pendingPub + k + (s.queued - 1)
        have := hg.2
        omega
      · have h1 := hcl h
        show s.counter + k - 1 = 0
        have := hg.2
        omega
      · have h1 : s.exited = some true := h
        rw [hg.1] at h1
        exact Option.noConfusion h1
    · exact Option.noConfusion hstep
  | recovErr =>
    simp only [crawlStep] at hstep
    split at hstep
    · obtain rfl : _ = s2 := by injection hstep
      rename_i hg
      refine ⟨?_, fun h => ?_, fun h => ?_⟩
      · show s.counter - 1 = s.pendingPub + (s.queued - 1)
        have := hg.2
        omega
      · have h1 := hcl h
        show s.counter - 1 = 0
        omega
      · have h1 : s.exited = some true := h
        rw [hg.1] at h1
        exact Option.noConfusion h1
    · exact Option.noConfusion hstep
  | fatalErr =>
    simp only [crawlStep] at hstep
    split at hstep
    · obtain rfl : _ = s2 := by injection hstep
      refine ⟨hc, fun h => hcl h, fun h => ?_⟩
      have h1 : (some false : Option Bool) = some true := h
      exact Bool.noConfusion (Option.some.inj h1)
    · exact Option.noConfusion hstep
  | closeCh =>
    simp only [crawlStep] at hstep
    split at hstep
    · obtain rfl : _ = s2 := by injection hstep
      rename_i hg
      exact ⟨hc, fun _ => hg.1, fun _ => rfl⟩
    · exact Option.noConfusion hstep
  | normalExit =>
    simp only [crawlStep] at hstep
    split at hstep
    · obtain rfl : _ = s2 := by injection hstep
      rename_i hg
      exact ⟨hc, fun h => hcl h, fun _ => hg.2⟩
    · exact Option.noConfusion hstep

theorem crawlRunFrom_inv : ∀ (evs : List CrawlEv) (s s2 : CrawlSt),
    crawlRunFrom s evs = some s2 → CrawlInv s → CrawlInv s2 := by
  intro evs
  induction evs with
  | nil => intro s s2 h hinv; simp [crawlRunFrom] at h; subst h; exact hinv
  | cons e evs ih =>
    intro s s2 h hinv
    simp only [crawlRunFrom] at h
    cases hstep : crawlStep s e with
    | none => rw [hstep] at h; simp at h
    | some s1 =>
      rw [hstep] at h
      exact ih s1 s2 h (crawlStep_inv hstep hinv)

/-- Once the frontier channel is closed it stays closed and no further
`closeCh` event can occur. -/
theorem crawlRunFrom_closed : ∀ (evs : List CrawlEv) (s s2 : CrawlSt),
    crawlRunFrom s evs = some s2 → s.closed = true →
    evs.count CrawlEv.closeCh = 0 ∧ s2.closed = true := by
  intro evs
  induction evs with
  | nil =>
    intro s s2 h hcl
    simp [crawlRunFrom] at h; subst h; simp [hcl]
  | cons e evs ih =>
    intro s s2 h hcl
    simp only [crawlRunFrom] at h
    cases hstep : crawlStep s e with
    | none => rw [hstep] at h; simp at h
    | some s1 =>
      rw [hstep] at h
      have h1 : s1.closed = true ∧ e ≠ CrawlEv.closeCh := by
        cases e <;> simp only [crawlStep] at hstep <;> split at hstep <;>
            (try exact Option.noConfusion hstep) <;>
            (obtain rfl : _ = s1 := by injection hstep) <;> rename_i hg
        · exact ⟨hcl, by simp⟩
        · exact ⟨hcl, by simp⟩
        · exact ⟨hcl, by simp⟩
        · exact ⟨hcl, by simp⟩
        · exact absurd hcl (by simp [hg.2])
        · exact ⟨hcl, by simp⟩
      obtain ⟨hcount, hcl2⟩ := ih s1 s2 h h1.1
      refine ⟨?_, hcl2⟩
      rw [List.count_cons, hcount]
      simp [h1.2]

/-- The `closeCh` event occurs at most once in any run. -/
theorem crawlRunFrom_close_once : ∀ (evs : List CrawlEv) (s s2 : CrawlSt),
    crawlRunFrom s evs = some s2 → evs.count CrawlEv.closeCh ≤ 1 := by
  intro evs
  induction evs with
  | nil => intro s s2 _; simp
  | cons e evs ih =>
    intro s s2 h
    simp only [crawlRunFrom] at h
    cases hstep : crawlStep s e with
    | none => rw [hstep] at h; simp at h
    | some s1 =>
      rw [hstep] at h
      by_cases he : e = CrawlEv.closeCh
      · subst he
        have h1 : s1.closed = true := by
          simp only [crawlStep] at hstep
          split at hstep
          · obtain rfl : _ = s1 := by injection hstep
            rfl
          · exact Option.noConfusion hstep
        have := (crawlRunFrom_closed evs s1 s2 h h1).1
        rw [List.count_cons, this]
        simp
      · rw [List.count_cons]
        have := ih s1 s2 h
        simp [he]
        omega

/-! ## Concrete fixtures -/

/-- The base URL of the repository's own unit tests
(`http://www.google.com/one/two` parsed). -/
def dummyURL : GoURL := { scheme := "http", host := "www.google.com", path := "/one/two" }

/-- A one-page site whose only page contains a single anchor linking to the
seed URL itself. -/
def selfLinkSite : String → Option (Nat × List HTok) := fun s =>
  if s = "http://a.test/" then some (200, [⟨"a", [("href", "http://a.test/")]⟩])
  else none

/-- Two frontier URLs for worker runs. -/
def workerURL1 : GoURL := { scheme := "http", host := "a.test", path := "/1" }

/-- Second frontier URL. -/
def workerURL2 : GoURL := { scheme := "http", host := "a.test", path := "/2" }

/-- A fetch capability whose first URL fails with a (non-timeout) transport
error and whose other URLs succeed. -/
def workerFetchErr : String → FetchRes := fun s =>
  if s = "http://a.test/1" then .getErr false else .resp 200 true true []

/-- A fetch capability with one HTTP 500 response and otherwise successful
pages. -/
def workerFetchOk : String → FetchRes := fun s =>
  if s = "http://a.test/1" then .resp 500 true true []
  else .resp 200 true true [⟨"a", [("href", "/x")]⟩]

/-! ## Well-formedness of URL records (claim C8)

`WfURL` collects the separator-freedom facts that hold of every URL produced
by `urlParse` (and hence of every `*url.URL` value the crawler handles);
`NormalizedURL` adds the facts guaranteed by `formatURL` for the URLs it
keeps: an `http`/`https` scheme, no fragment, and a clean (`resolvePath`-ed)
path. -/

/-- Segments of a path that contain no `"."` or `".."` segment (the output
shape of `resolvePath`). -/
def CleanSegs (l : List Char) : Prop :=
  ∀ seg ∈ splitOnC '/' l, seg ≠ ['.'] ∧ seg ≠ ['.', '.']

instance : DecidablePred CleanSegs := fun l =>
  List.decidableBAll _ (splitOnC '/' l)

/-- Separator facts holding of every parse-produced URL record. -/
def WfURL (u : GoURL) : Prop :=
  containsC '/' u.host.data = false ∧
  containsC '?' u.host.data = false ∧
  containsC '#' u.host.data = false ∧
  containsC '@' u.host.data = false ∧
  containsC '?' u.path.data = false ∧
  containsC '#' u.path.data = false ∧
  containsC '#' u.rawQuery.data = false ∧
  containsC '?' u.opaq.data = false ∧
  containsC '#' u.opaq.data = false ∧
  u.opaq.data.head? ≠ some '/' ∧
  (u.opaq ≠ "" → u.host = "" ∧ u.path = "")

instance : DecidablePred WfURL := fun u => by
  unfold WfURL
  infer_instance

/-- Shape of the URLs `formatURL` returns. -/
def NormalizedURL (u : GoURL) : Prop :=
  WfURL u ∧
  (u.scheme = "http" ∨ u.scheme = "https") ∧
  u.fragment = "" ∧
  (u.path = "" ∨ (u.path.data.head? = some '/' ∧ CleanSegs u.path.data))

instance : DecidablePred NormalizedURL := fun u => by
  unfold NormalizedURL
  infer_instance

/-! ## Helper lemmas for the extractor (claim C3) -/

theorem exceptIsOkErr {ε α : Type} (e : ε) :
    (Except.error e : Except ε α).isOk = false := rfl

theorem exceptIsOkOk {ε α : Type} (a : α) :
    (Except.ok a : Except ε α).isOk = true := rfl

theorem formatURL_isOk (p : GoURL) (v : String) :
    (formatURL p v).isOk = (urlParseRef p v).isOk := by
  unfold formatURL
  cases urlParseRef p v with
  | error e => rfl
  | ok rel =>
    dsimp only
    by_cases hs : rel.scheme = "http" ∨ rel.scheme = "https"
    · rw [if_pos hs]
      rfl
    · rw [if_neg hs]
      rfl

theorem attrHrefs_eq_hrefVals (t : HTok) : attrHrefs t = hrefVals t.attrs := by
  show (t.attrs.filter _).map _ = _
  induction t.attrs with
  | nil => rfl
  | cons a rest ih =>
    obtain ⟨k, v⟩ := a
    by_cases hk : k = "href" <;> simp [hrefVals, hk, List.filter, ih]

theorem collectAttrs_isOk (p : GoURL) :
    ∀ (attrs : List (String × String)) (links : List GoURL),
      (collectAttrs p links attrs).isOk = true ↔
        ∀ v ∈ hrefVals attrs, (urlParseRef p v).isOk = true := by
  intro attrs
  induction attrs with
  | nil =>
    intro links
    simp only [collectAttrs, hrefVals, exceptIsOkOk, List.not_mem_nil,
      false_implies, implies_true, iff_true]
  | cons a rest ih =>
    intro links
    obtain ⟨k, v⟩ := a
    by_cases hk : k = "href"
    · subst hk
      simp only [collectAttrs, hrefVals, eq_self_iff_true, if_true]
      cases hf : formatURL p v with
      | error e =>
        have hv : (urlParseRef p v).isOk = false := by rw [← formatURL_isOk, hf]; rfl
        dsimp only
        rw [exceptIsOkErr]
        constructor
        · intro hfalse
          exact Bool.noConfusion hfalse
        · intro hall
          have h1 := hall v (List.mem_cons_self v _)
          rw [h1] at hv
          exact Bool.noConfusion hv
      | ok olink =>
        have hv : (urlParseRef p v).isOk = true := by rw [← formatURL_isOk, hf]; rfl
        have hstep : (∀ x ∈ v :: hrefVals rest, (urlParseRef p x).isOk = true) ↔
            (∀ x ∈ hrefVals rest, (urlParseRef p x).isOk = true) := by
          constructor
          · intro hall x hx
            exact hall x (List.mem_cons_of_mem v hx)
          · intro hall x hx
            rcases List.mem_cons.mp hx with rfl | hx2
            · exact hv
            · exact hall x hx2
        cases olink with
        | some link =>
          dsimp only
          rw [hstep]
          exact ih (links ++ [link])
        | none =>
          dsimp only
          rw [hstep]
          exact ih links
    · simp only [collectAttrs, if_neg hk, hrefVals]
      exact ih links

theorem collectLinksGo_isOk (p : GoURL) :
    ∀ (toks : List HTok) (links : List GoURL),
      (collectLinksGo p links toks).isOk = true ↔
        ∀ v ∈ hrefsOf toks, (urlParseRef p v).isOk = true := by
  intro toks
  induction toks with
  | nil =>
    intro links
    simp only [collectLinksGo, hrefsOf, exceptIsOkOk, List.not_mem_nil,
      false_implies, implies_true, iff_true]
  | cons t rest ih =>
    intro links
    by_cases ht : t.data = "a"
    · simp only [collectLinksGo, if_pos ht, hrefsOf, ht, if_true,
        List.forall_mem_append, attrHrefs_eq_hrefVals]
      cases hca : collectAttrs p links t.attrs with
      | error e =>
        dsimp only
        rw [exceptIsOkErr]
        have h1 := collectAttrs_isOk p t.attrs links
        rw [hca, exceptIsOkErr] at h1
        constructor
        · intro hfalse
          exact Bool.noConfusion hfalse
        · intro h2
          exact Bool.noConfusion (h1.mpr h2.1)
      | ok links2 =>
        dsimp only
        have h1 := collectAttrs_isOk p t.attrs links
        rw [hca, exceptIsOkOk] at h1
        rw [ih links2]
        constructor
        · intro h2
          exact ⟨h1.mp rfl, h2⟩
        · intro h2
          exact h2.2
    · simp only [collectLinksGo, if_neg ht, hrefsOf, ht, if_false, List.nil_append]
      exact ih links

/-! ## Character-list lemmas (claim C8) -/

theorem containsC_iff_mem {c : Char} : ∀ {l : List Char}, containsC c l = true ↔ c ∈ l := by
  intro l
  induction l with
  | nil => simp [containsC]
  | cons x xs ih =>
    simp only [containsC, Bool.or_eq_true, decide_eq_true_eq, List.mem_cons, ih]
    constructor
    · rintro (rfl | h)
      · exact Or.inl rfl
      · exact Or.inr h
    · rintro (rfl | h)
      · exact Or.inl rfl
      · exact Or.inr h

theorem containsC_eq_false_iff {c : Char} {l : List Char} :
    containsC c l = false ↔ c ∉ l := by
  rw [← containsC_iff_mem]
  cases containsC c l <;> simp

theorem containsC_append {c : Char} (a b : List Char) :
    containsC c (a ++ b) = (containsC c a || containsC c b) := by
  induction a with
  | nil => simp [containsC]
  | cons x xs ih => simp [containsC, ih, Bool.or_assoc]

theorem cutFirst_not_found {sep : Char} : ∀ {l : List Char},
    containsC sep l = false → cutFirst sep l = (l, [], false) := by
  intro l
  induction l with
  | nil => intro _; rfl
  | cons x xs ih =>
    intro h
    simp only [containsC, Bool.or_eq_false_iff, decide_eq_false_iff_not] at h
    simp only [cutFirst, if_neg h.1, ih h.2]

theorem cutFirst_found {sep : Char} : ∀ {pre : List Char} (post : List Char),
    containsC sep pre = false → cutFirst sep (pre ++ sep :: post) = (pre, post, true) := by
  intro pre
  induction pre with
  | nil => intro post _; simp [cutFirst]
  | cons x xs ih =>
    intro post h
    simp only [containsC, Bool.or_eq_false_iff, decide_eq_false_iff_not] at h
    have h2 := ih post h.2
    simp only [List.cons_append, cutFirst, if_neg h.1, List.append_eq, h2]

theorem cutFirst_fst_not_contains (sep : Char) : ∀ (l : List Char),
    containsC sep (cutFirst sep l).1 = false := by
  intro l
  induction l with
  | nil => rfl
  | cons x xs ih =>
    by_cases h : x = sep
    · simp [cutFirst, h, containsC]
    · simp [cutFirst, h, containsC, ih]

theorem cutFirst_fst_subset {sep c : Char} : ∀ {l : List Char},
    c ∈ (cutFirst sep l).1 → c ∈ l := by
  intro l
  induction l with
  | nil => intro h; exact absurd h (List.not_mem_nil c)
  | cons x xs ih =>
    by_cases hx : x = sep
    · simp [cutFirst, hx]
    · simp only [cutFirst, if_neg hx, List.mem_cons]
      rintro (rfl | h)
      · exact Or.inl rfl
      · exact Or.inr (ih h)

theorem cutFirst_snd_subset {sep c : Char} : ∀ {l : List Char},
    c ∈ (cutFirst sep l).2.1 → c ∈ l := by
  intro l
  induction l with
  | nil => intro h; exact absurd h (List.not_mem_nil c)
  | cons x xs ih =>
    by_cases hx : x = sep
    · simp only [cutFirst, if_pos hx]
      intro h
      exact List.mem_cons_of_mem x h
    · simp only [cutFirst, if_neg hx]
      intro h
      exact List.mem_cons_of_mem x (ih h)

theorem splitOnC_ne_nil (sep : Char) : ∀ (l : List Char), splitOnC sep l ≠ [] := by
  intro l
  cases l with
  | nil => simp [splitOnC]
  | cons x xs =>
    simp only [splitOnC]
    cases splitOnC sep xs with
    | nil => simp
    | cons h t => by_cases hx : x = sep <;> simp [hx]

theorem splitOnC_cons_of_head {sep : Char} {xs : List Char} {g : List Char}
    {gs : List (List Char)} (h : splitOnC sep xs = g :: gs) (x : Char) :
    splitOnC sep (x :: xs) = if x = sep then [] :: g :: gs else (x :: g) :: gs := by
  simp only [splitOnC, h]

theorem joinC_splitOnC (sep : Char) : ∀ (l : List Char),
    joinC sep (splitOnC sep l) = l := by
  intro l
  induction l with
  | nil => rfl
  | cons x xs ih =>
    cases hs : splitOnC sep xs with
    | nil => exact absurd hs (splitOnC_ne_nil sep xs)
    | cons g gs =>
      rw [splitOnC_cons_of_head hs x]
      rw [hs] at ih
      by_cases hx : x = sep
      · rw [if_pos hx]
        show [] ++ sep :: joinC sep (g :: gs) = x :: xs
        simp [ih, hx]
      · rw [if_neg hx]
        cases gs with
        | nil =>
          show x :: g = x :: xs
          simpa [joinC] using ih
        | cons g2 gs2 =>
          show (x :: g) ++ sep :: joinC sep (g2 :: gs2) = x :: xs
          simpa [joinC] using ih

theorem mem_splitOnC_not_contains {sep : Char} : ∀ {l : List Char} {seg : List Char},
    seg ∈ splitOnC sep l → containsC sep seg = false := by
  intro l
  induction l with
  | nil =>
    intro seg h
    simp only [splitOnC, List.mem_singleton] at h
    subst h; rfl
  | cons x xs ih =>
    intro seg h
    cases hs : splitOnC sep xs with
    | nil => exact absurd hs (splitOnC_ne_nil sep xs)
    | cons g gs =>
      rw [splitOnC_cons_of_head hs x] at h
      by_cases hx : x = sep
      · rw [if_pos hx] at h
        rcases List.mem_cons.mp h with rfl | h2
        · rfl
        · exact ih (hs ▸ h2)
      · rw [if_neg hx] at h
        rcases List.mem_cons.mp h with rfl | h2
        · have hg : g ∈ splitOnC sep xs := hs ▸ List.mem_cons_self g gs
          have := ih hg
          simp [containsC, hx, this]
        · exact ih (hs ▸ List.mem_cons_of_mem g h2)

theorem mem_splitOnC_subset {sep c : Char} : ∀ {l : List Char} {seg : List Char},
    seg ∈ splitOnC sep l → c ∈ seg → c ∈ l := by
  intro l
  induction l with
  | nil =>
    intro seg h hc
    simp only [splitOnC, List.mem_singleton] at h
    subst h
    exact absurd hc (List.not_mem_nil c)
  | cons x xs ih =>
    intro seg h hc
    cases hs : splitOnC sep xs with
    | nil => exact absurd hs (splitOnC_ne_nil sep xs)
    | cons g gs =>
      rw [splitOnC_cons_of_head hs x] at h
      by_cases hx : x = sep
      · rw [if_pos hx] at h
        rcases List.mem_cons.mp h with rfl | h2
        · exact absurd hc (List.not_mem_nil c)
        · exact List.mem_cons_of_mem x (ih (hs ▸ h2) hc)
      · rw [if_neg hx] at h
        rcases List.mem_cons.mp h with rfl | h2
        · rcases List.mem_cons.mp hc with rfl | hc2
          · exact List.mem_cons_self c xs
          · exact List.mem_cons_of_mem x (ih (hs ▸ List.mem_cons_self g gs) hc2)
        · exact List.mem_cons_of_mem x (ih (hs ▸ List.mem_cons_of_mem g h2) hc)

theorem splitOnC_sepFree {sep : Char} : ∀ {l : List Char},
    containsC sep l = false → splitOnC sep l = [l] := by
  intro l
  induction l with
  | nil => intro _; rfl
  | cons x xs ih =>
    intro h
    simp only [containsC, Bool.or_eq_false_iff, decide_eq_false_iff_not] at h
    rw [splitOnC_cons_of_head (ih h.2) x, if_neg h.1]

theorem splitOnC_append_sepFree {sep : Char} : ∀ {h l : List Char} {g : List Char}
    {gs : List (List Char)}, containsC sep h = false → splitOnC sep l = g :: gs →
    splitOnC sep (h ++ l) = (h ++ g) :: gs := by
  intro h
  induction h with
  | nil => intro l g gs _ hl; simpa using hl
  | cons x xs ih =>
    intro l g gs hfree hl
    simp only [containsC, Bool.or_eq_false_iff, decide_eq_false_iff_not] at hfree
    have h2 := ih hfree.2 hl
    rw [List.cons_append, splitOnC_cons_of_head h2 x, if_neg hfree.1]
    simp

theorem splitOnC_joinC {sep : Char} : ∀ {L : List (List Char)}, L ≠ [] →
    (∀ e ∈ L, containsC sep e = false) → splitOnC sep (joinC sep L) = L := by
  intro L
  induction L with
  | nil => intro h _; exact absurd rfl h
  | cons g gs ih =>
    intro _ hfree
    cases gs with
    | nil =>
      show splitOnC sep g = [g]
      exact splitOnC_sepFree (hfree g (List.mem_cons_self g []))
    | cons g2 gs2 =>
      show splitOnC sep (g ++ sep :: joinC sep (g2 :: gs2)) = g :: g2 :: gs2
      have h2 : splitOnC sep (joinC sep (g2 :: gs2)) = g2 :: gs2 :=
        ih (by simp) (fun e he => hfree e (List.mem_cons_of_mem g he))
      have h3 : splitOnC sep (sep :: joinC sep (g2 :: gs2)) = [] :: g2 :: gs2 := by
        rw [splitOnC_cons_of_head h2 sep, if_pos rfl]
      have h4 := splitOnC_append_sepFree (hfree g (List.mem_cons_self g _)) h3
      simpa using h4

theorem mem_joinC {sep c : Char} : ∀ {L : List (List Char)},
    c ∈ joinC sep L → c = sep ∨ ∃ e ∈ L, c ∈ e := by
  intro L
  induction L with
  | nil => intro h; exact absurd h (List.not_mem_nil c)
  | cons g gs ih =>
    cases gs with
    | nil =>
      intro h
      exact Or.inr ⟨g, List.mem_cons_self g [], h⟩
    | cons g2 gs2 =>
      intro h
      rcases List.mem_append.mp h with h1 | h1
      · exact Or.inr ⟨g, List.mem_cons_self g _, h1⟩
      · rcases List.mem_cons.mp h1 with rfl | h2
        · exact Or.inl rfl
        · rcases ih h2 with h3 | ⟨e, he, hce⟩
          · exact Or.inl h3
          · exact Or.inr ⟨e, List.mem_cons_of_mem g he, hce⟩

theorem upToLastSlash_subset {c : Char} {l : List Char} :
    c ∈ upToLastSlash l → c ∈ l := by
  intro h
  unfold upToLastSlash at h
  rw [List.mem_reverse] at h
  have := (List.dropWhile_sublist _).mem h
  rwa [List.mem_reverse] at this

theorem afterLastC_not_contains (c : Char) (l : List Char) :
    containsC c (afterLastC c l) = false := by
  rw [containsC_eq_false_iff]
  intro h
  unfold afterLastC at h
  rw [List.mem_reverse] at h
  have := List.mem_takeWhile_imp h
  simp at this

theorem afterLastC_subset {c d : Char} {l : List Char} :
    d ∈ afterLastC c l → d ∈ l := by
  intro h
  unfold afterLastC at h
  rw [List.mem_reverse] at h
  have := (List.takeWhile_sublist _).mem h
  rwa [List.mem_reverse] at this

/-! ## resolvePath lemmas (claim C8) -/

theorem getLast?_mem_list {α : Type} {l : List α} {a : α}
    (h : l.getLast? = some a) : a ∈ l := by
  have h1 : a ∈ l.getLast? := by rw [h]; rfl
  obtain ⟨hne, heq⟩ := List.mem_getLast?_eq_getLast h1
  rw [heq]
  exact List.getLast_mem hne

theorem splitOnC_cons_sep (sep : Char) (l : List Char) :
    splitOnC sep (sep :: l) = [] :: splitOnC sep l := by
  cases hs : splitOnC sep l with
  | nil => exact absurd hs (splitOnC_ne_nil sep l)
  | cons g gs => rw [splitOnC_cons_of_head hs sep, if_pos rfl]

theorem trimLeadSlash_of_head {l : List Char} (h : l.head? ≠ some '/') :
    trimLeadSlash l = l := by
  cases l with
  | nil => rfl
  | cons x xs =>
    have hx : ¬ x = '/' := by
      intro hx
      exact h (by rw [hx]; rfl)
    unfold trimLeadSlash
    split
    · rename_i heq
      injection heq with h1 h2
      exact absurd h1 hx
    · rfl

theorem trimLeadSlash_subset {c : Char} {l : List Char} :
    c ∈ trimLeadSlash l → c ∈ l := by
  intro h
  unfold trimLeadSlash at h
  split at h
  · exact List.mem_cons_of_mem _ h
  · exact h

theorem dotSegs_mem : ∀ {src acc : List (List Char)} {e : List Char},
    e ∈ dotSegs acc src → e ∈ acc ∨ (e ∈ src ∧ e ≠ ['.'] ∧ e ≠ ['.', '.']) := by
  intro src
  induction src with
  | nil => intro acc e h; exact Or.inl h
  | cons g rest ih =>
    intro acc e h
    by_cases h1 : g = ['.']
    · rw [dotSegs, if_pos h1] at h
      rcases ih h with h2 | ⟨h2, h3⟩
      · exact Or.inl h2
      · exact Or.inr ⟨List.mem_cons_of_mem g h2, h3⟩
    · by_cases h2 : g = ['.', '.']
      · rw [dotSegs, if_neg h1, if_pos h2] at h
        rcases ih h with h3 | ⟨h3, h4⟩
        · exact Or.inl ((List.dropLast_sublist acc).mem h3)
        · exact Or.inr ⟨List.mem_cons_of_mem g h3, h4⟩
      · rw [dotSegs, if_neg h1, if_neg h2] at h
        rcases ih h with h3 | ⟨h3, h4⟩
        · rcases List.mem_append.mp h3 with h5 | h5
          · exact Or.inl h5
          · rw [List.mem_singleton] at h5
            subst h5
            exact Or.inr ⟨List.mem_cons_self e rest, h1, h2⟩
        · exact Or.inr ⟨List.mem_cons_of_mem g h3, h4⟩

theorem dotSegs_no_dots : ∀ {src acc : List (List Char)},
    (∀ e ∈ src, e ≠ ['.'] ∧ e ≠ ['.', '.']) → dotSegs acc src = acc ++ src := by
  intro src
  induction src with
  | nil => intro acc _; simp [dotSegs]
  | cons g rest ih =>
    intro acc h
    have hg := h g (List.mem_cons_self g rest)
    rw [dotSegs, if_neg hg.1, if_neg hg.2,
      ih (fun e he => h e (List.mem_cons_of_mem g he))]
    simp

theorem joinC_cons_cons (sep : Char) (g g2 : List Char) (t : List (List Char)) :
    joinC sep (g :: g2 :: t) = g ++ sep :: joinC sep (g2 :: t) := rfl

/-- Every segment of the reassembled output of `resolvePath` is empty or one
of the `dst` segments. -/
theorem out_segs {dst : List (List Char)}
    (hfree : ∀ e ∈ dst, containsC '/' e = false) :
    ∀ seg ∈ splitOnC '/' ('/' :: trimLeadSlash (joinC '/' dst)),
      seg = [] ∨ seg ∈ dst := by
  intro seg hseg
  cases dst with
  | nil =>
    simp only [joinC] at hseg
    have : splitOnC '/' ['/'] = [[], []] := rfl
    rw [show trimLeadSlash [] = [] from rfl] at hseg
    rw [this] at hseg
    rcases List.mem_cons.mp hseg with rfl | h2
    · exact Or.inl rfl
    · rw [List.mem_singleton] at h2
      exact Or.inl h2
  | cons g t =>
    by_cases hg : g = []
    · subst hg
      cases t with
      | nil =>
        simp only [joinC] at hseg
        rw [show trimLeadSlash [] = [] from rfl] at hseg
        rcases List.mem_cons.mp hseg with rfl | h2
        · exact Or.inl rfl
        · rw [List.mem_singleton] at h2
          exact Or.inl h2
      | cons g2 t2 =>
        rw [joinC_cons_cons, List.nil_append,
          show trimLeadSlash ('/' :: joinC '/' (g2 :: t2)) = joinC '/' (g2 :: t2)
            from rfl] at hseg
        have hj : ('/' : Char) :: joinC '/' (g2 :: t2) = joinC '/' ([] :: g2 :: t2) := rfl
        rw [hj, splitOnC_joinC (by simp) (by
          intro e he
          rcases List.mem_cons.mp he with rfl | he2
          · rfl
          · exact hfree e (List.mem_cons_of_mem [] he2))] at hseg
        rcases List.mem_cons.mp hseg with rfl | h2
        · exact Or.inl rfl
        · exact Or.inr (List.mem_cons_of_mem [] h2)
    · have hfreeg := hfree g (List.mem_cons_self g t)
      have hhead : (joinC '/' (g :: t)).head? ≠ some '/' := by
        have hgh : g.head? ≠ some '/' := by
          cases g with
          | nil => simp
          | cons gc gcs =>
            simp only [List.head?_cons, ne_eq, Option.some.injEq]
            intro hgc
            subst hgc
            simp [containsC] at hfreeg
        cases t with
        | nil => exact hgh
        | cons g2 t2 =>
          rw [joinC_cons_cons]
          cases g with
          | nil => exact absurd rfl hg
          | cons gc gcs => simpa using hgh
      rw [trimLeadSlash_of_head hhead] at hseg
      have hj : ('/' : Char) :: joinC '/' (g :: t) = joinC '/' ([] :: g :: t) := rfl
      rw [hj, splitOnC_joinC (by simp) (by
        intro e he
        rcases List.mem_cons.mp he with rfl | he2
        · rfl
        · exact hfree e he2)] at hseg
      rcases List.mem_cons.mp hseg with rfl | h2
      · exact Or.inl rfl
      · exact Or.inr h2

/-- The output of `resolvePath` is empty or starts with a slash and has no
dot segments. -/
theorem resolvePath_clean (base ref : List Char) :
    resolvePath base ref = [] ∨
    ((resolvePath base ref).head? = some '/' ∧ CleanSegs (resolvePath base ref)) := by
  unfold resolvePath
  set full := if ref = [] then base
    else if ref.head? ≠ some '/' then upToLastSlash base ++ ref else ref with hfull
  by_cases h0 : full = []
  · rw [if_pos h0]
    exact Or.inl rfl
  · rw [if_neg h0]
    refine Or.inr ⟨rfl, ?_⟩
    intro seg hseg
    set src := splitOnC '/' full with hsrc
    set dst0 := dotSegs ([] : List (List Char)) src with hdst0
    set dstF := if src.getLast? = some ['.'] || src.getLast? = some ['.', '.'] then
        dst0 ++ [[]] else dst0 with hdstF
    have hdstF_free : ∀ e ∈ dstF, containsC '/' e = false := by
      intro e he
      have he2 : e ∈ dst0 ∨ e = [] := by
        rw [hdstF] at he
        split at he
        · rcases List.mem_append.mp he with h2 | h2
          · exact Or.inl h2
          · rw [List.mem_singleton] at h2
            exact Or.inr h2
        · exact Or.inl he
      rcases he2 with h2 | rfl
      · rcases dotSegs_mem h2 with h3 | ⟨h3, _⟩
        · exact absurd h3 (List.not_mem_nil e)
        · exact mem_splitOnC_not_contains h3
      · rfl
    have := out_segs hdstF_free seg hseg
    rcases this with rfl | hmem
    · exact ⟨by simp, by simp⟩
    · rw [hdstF] at hmem
      have hmem0 : seg ∈ dst0 ∨ seg = [] := by
        split at hmem
        · rcases List.mem_append.mp hmem with h2 | h2
          · exact Or.inl h2
          · rw [List.mem_singleton] at h2
            exact Or.inr h2
        · exact Or.inl hmem
      rcases hmem0 with h2 | rfl
      · rcases dotSegs_mem h2 with h3 | ⟨_, h4⟩
        · exact absurd h3 (List.not_mem_nil seg)
        · exact h4
      · exact ⟨by simp, by simp⟩

/-- On a clean absolute path (or the empty path), `resolvePath p []` is the
identity — dot-segment removal is idempotent. -/
theorem resolvePath_clean_id {p : List Char}
    (h : p = [] ∨ (p.head? = some '/' ∧ CleanSegs p)) : resolvePath p [] = p := by
  rcases h with rfl | ⟨hhead, hclean⟩
  · rfl
  · cases p with
    | nil => simp at hhead
    | cons x p2 =>
      rw [List.head?_cons, Option.some.injEq] at hhead
      subst hhead
      unfold resolvePath
      rw [if_pos rfl, if_neg (by simp)]
      have hsrc : splitOnC '/' ('/' :: p2) = [] :: splitOnC '/' p2 :=
        splitOnC_cons_sep '/' p2
      have hnodots : ∀ e ∈ splitOnC '/' ('/' :: p2), e ≠ ['.'] ∧ e ≠ ['.', '.'] :=
        hclean
      rw [hsrc]
      dsimp only
      rw [dotSegs_no_dots (hsrc ▸ hnodots), List.nil_append]
      have hlast : ¬(([] :: splitOnC '/' p2).getLast? = some ['.'] ∨
          ([] :: splitOnC '/' p2).getLast? = some ['.', '.']) := by
        rintro (h2 | h2) <;>
        · have h3 := getLast?_mem_list h2
          have h4 := hnodots _ (hsrc ▸ h3)
          simp at h4
      rw [if_neg (by simpa using hlast)]
      cases ht : splitOnC '/' p2 with
      | nil => exact absurd ht (splitOnC_ne_nil '/' p2)
      | cons g2 t2 =>
        rw [joinC_cons_cons, List.nil_append,
          show trimLeadSlash ('/' :: joinC '/' (g2 :: t2)) = joinC '/' (g2 :: t2)
            from rfl]
        have : ('/' : Char) :: joinC '/' (g2 :: t2) = joinC '/' ([] :: g2 :: t2) := rfl
        rw [this, ← ht, ← hsrc, joinC_splitOnC]

/-- Every character of `resolvePath base ref` is a slash or comes from `base`
or `ref`. -/
theorem resolvePath_subset {base ref : List Char} {c : Char} :
    c ∈ resolvePath base ref → c = '/' ∨ c ∈ base ∨ c ∈ ref := by
  intro hc
  unfold resolvePath at hc
  set full := if ref = [] then base
    else if ref.head? ≠ some '/' then upToLastSlash base ++ ref else ref with hfull
  have hfullsub : ∀ d : Char, d ∈ full → d ∈ base ∨ d ∈ ref := by
    intro d hd
    rw [hfull] at hd
    split at hd
    · exact Or.inl hd
    · split at hd
      · rcases List.mem_append.mp hd with h2 | h2
        · exact Or.inl (upToLastSlash_subset h2)
        · exact Or.inr h2
      · exact Or.inr hd
  by_cases h0 : full = []
  · rw [if_pos h0] at hc
    exact absurd hc (List.not_mem_nil c)
  · rw [if_neg h0] at hc
    rcases List.mem_cons.mp hc with rfl | hc2
    · exact Or.inl rfl
    · have hc3 := trimLeadSlash_subset hc2
      rcases mem_joinC hc3 with rfl | ⟨e, he, hce⟩
      · exact Or.inl rfl
      · have he2 : e ∈ dotSegs ([] : List (List Char)) (splitOnC '/' full) ∨ e = [] := by
          split at he
          · rcases List.mem_append.mp he with h2 | h2
            · exact Or.inl h2
            · rw [List.mem_singleton] at h2
              exact Or.inr h2
          · exact Or.inl he
        rcases he2 with h2 | rfl
        · rcases dotSegs_mem h2 with h3 | ⟨h3, _⟩
          · exact absurd h3 (List.not_mem_nil e)
          · have := mem_splitOnC_subset h3 hce
            rcases hfullsub c this with h4 | h4
            · exact Or.inr (Or.inl h4)
            · exact Or.inr (Or.inr h4)
        · exact absurd hce (List.not_mem_nil c)

/-! ## Parse invariants (claim C8) -/

theorem contains_false_of_subset {c : Char} {a b : List Char}
    (hsub : ∀ d ∈ a, d ∈ b) (hb : containsC c b = false) : containsC c a = false := by
  rw [containsC_eq_false_iff] at hb ⊢
  intro hc
  exact hb (hsub c hc)

theorem getSchemeGo_rest_free {c : Char} : ∀ {l acc whole sch rest : List Char},
    getSchemeGo whole acc l = .ok (sch, rest) →
    containsC c whole = false → containsC c l = false → containsC c rest = false := by
  intro l
  induction l with
  | nil =>
    intro acc whole sch rest h hwhole _
    simp only [getSchemeGo, Except.ok.injEq, Prod.mk.injEq] at h
    rw [← h.2]
    exact hwhole
  | cons x xs ih =>
    intro acc whole sch rest h hwhole hl
    have hxs : containsC c xs = false := by
      simp only [containsC, Bool.or_eq_false_iff] at hl
      exact hl.2
    simp only [getSchemeGo] at h
    split at h
    · exact ih h hwhole hxs
    · split at h
      · split at h
        · simp only [Except.ok.injEq, Prod.mk.injEq] at h
          rw [← h.2]
          exact hwhole
        · exact ih h hwhole hxs
      · split at h
        · split at h
          · exact Except.noConfusion h
          · simp only [Except.ok.injEq, Prod.mk.injEq] at h
            rw [← h.2]
            exact hxs
        · simp only [Except.ok.injEq, Prod.mk.injEq] at h
          rw [← h.2]
          exact hwhole

theorem querySplit_free {c : Char} {rest : List Char} (h : containsC c rest = false) :
    containsC c (querySplit rest).1 = false ∧
    containsC c (querySplit rest).2.2 = false := by
  unfold querySplit
  split
  · refine ⟨?_, rfl⟩
    exact contains_false_of_subset (fun d hd => (List.dropLast_sublist rest).mem hd) h
  · exact ⟨contains_false_of_subset (fun d hd => cutFirst_fst_subset hd) h,
      contains_false_of_subset (fun d hd => cutFirst_snd_subset hd) h⟩

theorem querySplit_fst_qfree (rest : List Char) :
    containsC '?' (querySplit rest).1 = false := by
  unfold querySplit
  split
  · rename_i hcond
    simp only [Bool.and_eq_true, Bool.not_eq_eq_eq_not, Bool.not_true,
      decide_eq_true_eq] at hcond
    exact hcond.2
  · exact cutFirst_fst_not_contains '?' rest

theorem querySplit_fq {rest : List Char} (h : (querySplit rest).2.1 = true) :
    (querySplit rest).2.2 = [] := by
  unfold querySplit at h ⊢
  split at h
  · simp_all
  · exact absurd h (by simp)

theorem parseAuthority_at_free (a : List Char) :
    containsC '@' (parseAuthority a) = false := by
  unfold parseAuthority
  split
  · exact afterLastC_not_contains '@' a
  · rename_i hcond
    simpa using hcond

theorem parseAuthority_subset {c : Char} {a : List Char}
    (h : c ∈ parseAuthority a) : c ∈ a := by
  unfold parseAuthority at h
  split at h
  · exact afterLastC_subset h
  · exact h

theorem parseGo_wf {raw : List Char} {u : GoURL}
    (hfree : containsC '#' raw = false) (h : parseGo raw = .ok u) :
    WfURL u ∧ u.fragment = "" := by
  unfold parseGo at h
  split at h
  · obtain rfl : _ = u := Except.ok.inj h
    exact ⟨by decide, rfl⟩
  · rename_i hstar
    cases hg : getSchemeGo raw [] raw with
    | error e => rw [hg] at h; exact Except.noConfusion h
    | ok p =>
      obtain ⟨schemeCs, afterScheme⟩ := p
      rw [hg] at h
      unfold parseGoAfterScheme at h
      dsimp only at h
      have hAfter : containsC '#' afterScheme = false :=
        getSchemeGo_rest_free hg hfree hfree
      have hrest_h : containsC '#' (querySplit afterScheme).1 = false :=
        (querySplit_free hAfter).1
      have hquery_h : containsC '#' (querySplit afterScheme).2.2 = false :=
        (querySplit_free hAfter).2
      have hrest_q : containsC '?' (querySplit afterScheme).1 = false :=
        querySplit_fst_qfree afterScheme
      split at h
      · rename_i hslash
        split at h
        · obtain rfl : _ = u := Except.ok.inj h
          exact ⟨⟨rfl, rfl, rfl, rfl, rfl, rfl, hquery_h, hrest_q, hrest_h,
            hslash, fun _ => ⟨rfl, rfl⟩⟩, rfl⟩
        · split at h
          · exact Except.noConfusion h
          · obtain rfl : _ = u := Except.ok.inj h
            exact ⟨⟨rfl, rfl, rfl, rfl, hrest_q, hrest_h, hquery_h, rfl, rfl,
              by simp, fun hop => absurd rfl hop⟩, rfl⟩
      · rename_i hslash
        split at h
        · rename_i hauth
          obtain rfl : _ = u := Except.ok.inj h
          have hAuthSub : ∀ d ∈ (cutFirst '/' ((querySplit afterScheme).1.drop 2)).1,
              d ∈ (querySplit afterScheme).1 := by
            intro d hd
            exact List.drop_subset 2 _ (cutFirst_fst_subset hd)
          have hPathSub : ∀ d ∈ (cutFirst '/' ((querySplit afterScheme).1.drop 2)).2.1,
              d ∈ (querySplit afterScheme).1 := by
            intro d hd
            exact List.drop_subset 2 _ (cutFirst_snd_subset hd)
          have hHostSub : ∀ d ∈ parseAuthority
              (cutFirst '/' ((querySplit afterScheme).1.drop 2)).1,
              d ∈ (querySplit afterScheme).1 := by
            intro d hd
            exact hAuthSub d (parseAuthority_subset hd)
          have hAuthSlash : containsC '/'
              (cutFirst '/' ((querySplit afterScheme).1.drop 2)).1 = false :=
            cutFirst_fst_not_contains '/' _
          have hPathFree : ∀ (c : Char), c ≠ '/' →
              containsC c (querySplit afterScheme).1 = false →
              containsC c (if (cutFirst '/' ((querySplit afterScheme).1.drop 2)).2.2 then
                '/' :: (cutFirst '/' ((querySplit afterScheme).1.drop 2)).2.1
                else ([] : List Char)) = false := by
            intro c hc hfree2
            split
            · simp only [containsC, Bool.or_eq_false_iff]
              refine ⟨by simpa using fun hcc => hc (by rw [hcc]), ?_⟩
              exact contains_false_of_subset hPathSub hfree2
            · rfl
          exact ⟨⟨contains_false_of_subset (fun d hd => parseAuthority_subset hd)
              hAuthSlash, contains_false_of_subset hHostSub hrest_q,
            contains_false_of_subset hHostSub hrest_h,
            parseAuthority_at_free _,
            hPathFree '?' (by decide) hrest_q,
            hPathFree '#' (by decide) hrest_h,
            hquery_h, rfl, rfl, by simp, fun hop => absurd rfl hop⟩, rfl⟩
        · obtain rfl : _ = u := Except.ok.inj h
          exact ⟨⟨rfl, rfl, rfl, rfl, hrest_q, hrest_h, hquery_h, rfl, rfl,
            by simp, fun hop => absurd rfl hop⟩, rfl⟩

theorem urlParse_wf {s : String} {u : GoURL} (h : urlParse s = .ok u) :
    WfURL u := by
  unfold urlParse at h
  dsimp only at h
  cases hp : parseGo (cutFirst '#' s.data).1 with
  | error e => rw [hp] at h; exact Except.noConfusion h
  | ok u0 =>
    rw [hp] at h
    obtain rfl : _ = u := Except.ok.inj h
    have h0 := parseGo_wf (cutFirst_fst_not_contains '#' s.data) hp
    exact h0.1

/-! ## Normalization facts about formatURL outputs (claim C8) -/

theorem resolvePath_free {c : Char} (hc : c ≠ '/') {b r : List Char}
    (hb : containsC c b = false) (hr : containsC c r = false) :
    containsC c (resolvePath b r) = false := by
  rw [containsC_eq_false_iff] at hb hr ⊢
  intro hmem
  rcases resolvePath_subset hmem with rfl | h | h
  · exact hc rfl
  · exact hb h
  · exact hr h

theorem strMk_empty {l : List Char} (h : l = []) : (⟨l⟩ : String) = "" := by
  rw [h]

theorem resolveReference_absCase {base ref : GoURL}
    (h : ref.scheme ≠ "" ∨ ref.host ≠ "") :
    resolveReference base ref =
      { scheme := if ref.scheme = "" then base.scheme else ref.scheme,
        opaq := ref.opaq, host := ref.host,
        path := ⟨resolvePath ref.path.data []⟩,
        forceQuery := ref.forceQuery, rawQuery := ref.rawQuery,
        fragment := ref.fragment } := by
  unfold resolveReference
  rw [if_pos (by simpa using h)]
  by_cases hsch : ref.scheme = ""
  · rw [if_pos hsch, if_pos hsch]
  · rw [if_neg hsch, if_neg hsch]

theorem resolveReference_opaqCase {base ref : GoURL}
    (h1 : ¬(ref.scheme ≠ "" ∨ ref.host ≠ "")) (h2 : ref.opaq ≠ "") :
    resolveReference base ref =
      { scheme := base.scheme, opaq := ref.opaq, host := "", path := "",
        forceQuery := ref.forceQuery, rawQuery := ref.rawQuery,
        fragment := ref.fragment } := by
  have hsch : ref.scheme = "" := by
    by_contra hcon
    exact h1 (Or.inl hcon)
  unfold resolveReference
  rw [if_neg (by simpa using h1), if_pos hsch, if_pos (by simpa using h2)]

theorem resolveReference_relCase {base ref : GoURL}
    (h1 : ¬(ref.scheme ≠ "" ∨ ref.host ≠ "")) (h3 : ref.opaq = "") :
    resolveReference base ref =
      { scheme := base.scheme, opaq := ref.opaq, host := base.host,
        path := ⟨resolvePath base.path.data ref.path.data⟩,
        forceQuery := ref.forceQuery,
        rawQuery := if ref.path = "" && ref.rawQuery = "" then base.rawQuery
          else ref.rawQuery,
        fragment := if ref.path = "" && ref.rawQuery = "" then
            (if ref.fragment = "" then base.fragment else ref.fragment)
          else ref.fragment } := by
  have hsch : ref.scheme = "" := by
    by_contra hcon
    exact h1 (Or.inl hcon)
  unfold resolveReference
  rw [if_neg (by simpa using h1), if_pos hsch, if_neg (by simpa using h3)]
  by_cases hq : ref.path = "" && ref.rawQuery = ""
  · rw [if_pos hq, if_pos hq, if_pos hq]
    by_cases hf : ref.fragment = ""
    · rw [if_pos hf, if_pos hf]
    · rw [if_neg hf, if_neg hf]
  · rw [if_neg hq, if_neg hq, if_neg hq]

theorem resolveReference_wf {base ref : GoURL} (hbase : WfURL base)
    (hrefwf : WfURL ref) :
    WfURL (resolveReference base ref) ∧
    ((resolveReference base ref).path = "" ∨
      ((resolveReference base ref).path.data.head? = some '/' ∧
        CleanSegs (resolveReference base ref).path.data)) := by
  obtain ⟨b1, b2, b3, b4, b5, b6, b7, b8, b9, b10, b11⟩ := hbase
  obtain ⟨r1, r2, r3, r4, r5, r6, r7, r8, r9, r10, r11⟩ := hrefwf
  by_cases habs : ref.scheme ≠ "" ∨ ref.host ≠ ""
  · rw [resolveReference_absCase habs]
    refine ⟨⟨r1, r2, r3, r4, resolvePath_free (by decide) r5 rfl,
      resolvePath_free (by decide) r6 rfl, r7, r8, r9, r10, fun hop => ?_⟩, ?_⟩
    · obtain ⟨hh, hp⟩ := r11 hop
      refine ⟨hh, strMk_empty ?_⟩
      rw [hp]
      rfl
    · rcases resolvePath_clean ref.path.data [] with h | ⟨h1, h2⟩
      · exact Or.inl (strMk_empty h)
      · exact Or.inr ⟨h1, h2⟩
  · by_cases hop : ref.opaq = ""
    · rw [resolveReference_relCase habs hop]
      refine ⟨⟨b1, b2, b3, b4, resolvePath_free (by decide) b5 r5,
        resolvePath_free (by decide) b6 r6, ?_, r8, r9, r10,
        fun hop2 => absurd hop hop2⟩, ?_⟩
      · split
        · exact b7
        · exact r7
      · rcases resolvePath_clean base.path.data ref.path.data with h | ⟨h1, h2⟩
        · exact Or.inl (strMk_empty h)
        · exact Or.inr ⟨h1, h2⟩
    · rw [resolveReference_opaqCase habs hop]
      exact ⟨⟨rfl, rfl, rfl, rfl, rfl, rfl, r7, r8, r9, r10,
        fun _ => ⟨rfl, rfl⟩⟩, Or.inl rfl⟩

theorem formatURL_normalized {base : GoURL} {href : String} {u : GoURL}
    (hbase : WfURL base) (h : formatURL base href = .ok (some u)) :
    NormalizedURL u := by
  unfold formatURL at h
  cases hp : urlParseRef base href with
  | error e => rw [hp] at h; exact Except.noConfusion h
  | ok rel =>
    rw [hp] at h
    dsimp only at h
    unfold urlParseRef at hp
    cases hparse : urlParse href with
    | error e => rw [hparse] at hp; exact Except.noConfusion hp
    | ok ref =>
      rw [hparse] at hp
      obtain rfl : resolveReference base ref = rel := Except.ok.inj hp
      obtain ⟨hwf, hclean⟩ := resolveReference_wf hbase (urlParse_wf hparse)
      by_cases hs : (resolveReference base ref).scheme = "http" ∨
          (resolveReference base ref).scheme = "https"
      · rw [if_pos hs] at h
        obtain rfl : _ = u := Option.some.inj (Except.ok.inj h)
        obtain ⟨w1, w2, w3, w4, w5, w6, w7, w8, w9, w10, w11⟩ := hwf
        exact ⟨⟨w1, w2, w3, w4, w5, w6, w7, w8, w9, w10, w11⟩, hs, rfl, hclean⟩
      · rw [if_neg hs] at h
        exact Option.noConfusion (Except.ok.inj h)

/-! ## Reparsing the serialised form (claim C8) -/

theorem dropLast_append_cons {α : Type} : ∀ (a : List α) (c : α) (b : List α),
    (a ++ c :: b).dropLast = a ++ (c :: b).dropLast := by
  intro a c b
  induction a with
  | nil => rfl
  | cons x xs ih =>
    cases xs with
    | nil => rfl
    | cons y ys =>
      show x :: ((y :: ys) ++ c :: b).dropLast = x :: ((y :: ys) ++ (c :: b).dropLast)
      rw [ih]

theorem getLast?_ne_of_free {c : Char} {l : List Char}
    (h : containsC c l = false) : l.getLast? ≠ some c := by
  intro hl
  rw [containsC_eq_false_iff] at h
  exact h (getLast?_mem_list hl)

theorem strNe_data {s : String} (h : s ≠ "") : s.data ≠ [] := by
  intro hd
  exact h (congrArg String.mk hd)

/-- How the query-splitting step of `parse` dismantles a serialised query
part: the query text is recovered exactly, and `ForceQuery` survives exactly
when the raw query is empty. -/
theorem querySplit_queryPart (u : GoURL) {core : List Char}
    (hcore : containsC '?' core = false) :
    querySplit (core ++ queryPartC u) =
      (core, u.forceQuery && decide (u.rawQuery = ""), u.rawQuery.data) := by
  by_cases hrq : u.rawQuery = ""
  · by_cases hfq : u.forceQuery = true
    · have hqp : queryPartC u = ['?'] := by
        simp [queryPartC, hfq, hrq]
      rw [hqp]
      unfold querySplit
      rw [if_pos]
      · simp [hfq, hrq]
      · have h1 : (core ++ ['?']).getLast? = some '?' := by
          rw [List.getLast?_append_cons]
          rfl
        have h2 : (core ++ ['?']).dropLast = core := by
          rw [dropLast_append_cons]
          simp
        simp [h1, h2, hcore]
    · have hfq2 : u.forceQuery = false := by
        cases hu : u.forceQuery
        · rfl
        · exact absurd hu hfq
      have hqp : queryPartC u = [] := by
        simp [queryPartC, hfq2, hrq]
      rw [hqp, List.append_nil]
      unfold querySplit
      rw [if_neg]
      · rw [cutFirst_not_found hcore]
        simp [hfq2, hrq]
      · simp only [Bool.and_eq_true, Bool.not_eq_eq_eq_not, Bool.not_true,
          decide_eq_true_eq]
        intro hcon
        exact absurd hcon.1 (getLast?_ne_of_free hcore)
  · have hqp : queryPartC u = '?' :: u.rawQuery.data := by
      simp [queryPartC, hrq]
    rw [hqp]
    have hne : u.rawQuery.data ≠ [] := strNe_data hrq
    have hguard : ¬((core ++ '?' :: u.rawQuery.data).getLast? = some '?' ∧
        containsC '?' (core ++ '?' :: u.rawQuery.data).dropLast = false) := by
      rintro ⟨hg1, hg2⟩
      rw [dropLast_append_cons] at hg2
      cases hd : u.rawQuery.data with
      | nil => exact hne hd
      | cons q qs =>
        rw [hd] at hg2
        have : containsC '?' (core ++ ('?' :: q :: qs).dropLast) = true := by
          rw [containsC_append]
          simp [containsC]
        rw [this] at hg2
        exact Bool.noConfusion hg2
    unfold querySplit
    rw [if_neg (by simpa using hguard), cutFirst_found _ hcore]
    simp [hrq]

/-- `getScheme` recovers an alphabetic scheme terminated by a colon. -/
theorem getSchemeGo_alpha : ∀ {sch : List Char},
    (∀ c ∈ sch, isAlphaC c = true) → ∀ {acc whole rest : List Char}, acc ++ sch ≠ [] →
    getSchemeGo whole acc (sch ++ ':' :: rest) = .ok (acc ++ sch, rest) := by
  intro sch
  induction sch with
  | nil =>
    intro _ acc whole rest hne
    show getSchemeGo whole acc (':' :: rest) = _
    have hacc : acc ≠ [] := by simpa using hne
    simp [getSchemeGo, isAlphaC, isDigitC, hacc]
  | cons c cs ih =>
    intro halpha acc whole rest hne
    have hc := halpha c (List.mem_cons_self c cs)
    show getSchemeGo whole acc (c :: (cs ++ ':' :: rest)) = _
    rw [getSchemeGo, if_pos (by simp [hc])]
    have h2 := @ih (fun d hd => halpha d (List.mem_cons_of_mem c hd))
      (acc ++ [c]) whole rest (by simp)
    rw [h2]
    simp

theorem scheme_http_or_https_data {s : String}
    (h : s = "http" ∨ s = "https") :
    (∀ c ∈ s.data, isAlphaC c = true) ∧ s.data.map Char.toLower = s.data ∧
      s.data ≠ [] := by
  rcases h with rfl | rfl <;> exact ⟨by decide, by decide, by decide⟩

theorem data_empty : ("" : String).data = [] := rfl

theorem fragPartC_empty {u : GoURL} (h : u.fragment = "") : fragPartC u = [] := by
  simp [fragPartC, h]

theorem parseAuthority_id {a : List Char} (h : containsC '@' a = false) :
    parseAuthority a = a := by
  unfold parseAuthority
  rw [if_neg (by simp [h])]

theorem parseGo_scheme_split {s : String} (hsch : s = "http" ∨ s = "https")
    (tail : List Char) :
    parseGo (s.data ++ ':' :: tail) = parseGoAfterScheme s.data tail := by
  obtain ⟨halpha, hlower, hsd⟩ := scheme_http_or_https_data hsch
  unfold parseGo
  rw [if_neg ?hstar]
  case hstar =>
    rcases hsch with rfl | rfl <;> intro hcon <;>
      exact absurd (show (some 'h' : Option Char) = some '*' from
        congrArg List.head? hcon) (by decide)
  rw [getSchemeGo_alpha halpha (by simpa using hsd)]
  dsimp only
  rw [List.nil_append, hlower]

theorem urlStringC_opaqShape {u : GoURL} (hs : u.scheme ≠ "") (hop : u.opaq ≠ "")
    (hfrag : u.fragment = "") :
    urlStringC u = u.scheme.data ++ ':' :: (u.opaq.data ++ queryPartC u) := by
  simp only [urlStringC]
  rw [if_pos hop, if_pos hs, fragPartC_empty hfrag]
  simp

theorem urlStringC_bareShape {u : GoURL} (hs : u.scheme ≠ "") (hop : u.opaq = "")
    (hh : u.host = "") (hp : u.path = "") (hfrag : u.fragment = "") :
    urlStringC u = u.scheme.data ++ ':' :: queryPartC u := by
  simp only [urlStringC]
  rw [if_neg (by simp [hop]), if_pos hs, fragPartC_empty hfrag,
    if_pos (show (decide (u.scheme ≠ "") || decide (u.host ≠ "")) = true by
      simp [hs]),
    if_neg (show ¬((decide (u.host ≠ "") || decide (u.path ≠ "")) = true) by
      simp [hh, hp])]
  rw [hh, hp]
  simp [data_empty]

theorem urlStringC_hostShape {u : GoURL} (hs : u.scheme ≠ "") (hop : u.opaq = "")
    (hhp : u.host ≠ "" ∨ u.path ≠ "")
    (hpath : u.path = "" ∨ u.path.data.head? = some '/')
    (hfrag : u.fragment = "") :
    urlStringC u = u.scheme.data ++ ':' ::
      ('/' :: '/' :: (u.host.data ++ (u.path.data ++ queryPartC u))) := by
  have hsd : u.scheme.data ≠ [] := strNe_data hs
  simp only [urlStringC]
  rw [if_neg (by simp [hop]), if_pos hs, fragPartC_empty hfrag,
    if_pos (show (decide (u.scheme ≠ "") || decide (u.host ≠ "")) = true by
      simp [hs]),
    if_pos (show (decide (u.host ≠ "") || decide (u.path ≠ "")) = true by
      rcases hhp with h | h <;> simp [h]),
    if_neg (show ¬((decide (u.path ≠ "") && decide (u.path.data.head? ≠ some '/') &&
        decide (u.host ≠ "")) = true) by
      rcases hpath with h | h <;> simp [h]),
    if_neg (show ¬(((u.scheme.data ++ [':'] ++ ['/', '/'] ++ u.host.data : List Char) = [] &&
        containsC ':' (cutFirst '/' u.path.data).1) = true) by
      simp [hsd])]
  simp

theorem goURLExt {a b : GoURL} (h1 : a.scheme = b.scheme) (h2 : a.opaq = b.opaq)
    (h3 : a.host = b.host) (h4 : a.path = b.path) (h5 : a.forceQuery = b.forceQuery)
    (h6 : a.rawQuery = b.rawQuery) (h7 : a.fragment = b.fragment) : a = b := by
  cases a
  cases b
  simp_all

theorem setFragEmpty {v : GoURL} (h : v.fragment = "") :
    { v with fragment := "" } = v :=
  goURLExt rfl rfl rfl rfl rfl rfl h.symm

theorem queryPartC_canon (u : GoURL) :
    queryPartC { u with forceQuery := u.forceQuery && decide (u.rawQuery = "") } =
      queryPartC u := by
  unfold queryPartC
  by_cases hrq : u.rawQuery = "" <;> by_cases hfq : u.forceQuery = true <;>
    simp [hrq, hfq]

theorem urlStringC_fq_canon (u : GoURL) :
    urlStringC { u with forceQuery := u.forceQuery && decide (u.rawQuery = "") } =
      urlStringC u := by
  unfold urlStringC
  rw [queryPartC_canon]
  dsimp only
  rfl

/-- Reparsing the serialised form of a normalized URL recovers the same URL
record up to the `ForceQuery` flag, which survives exactly when the raw query
is empty (its serialisation is lossy otherwise); the string form is preserved
exactly. -/
theorem urlParse_roundtrip {u : GoURL} (hn : NormalizedURL u) :
    urlParse (urlString u) =
      .ok { u with forceQuery := u.forceQuery && decide (u.rawQuery = "") } := by
  obtain ⟨hwf, hsch, hfrag, hpath⟩ := hn
  obtain ⟨w1, w2, w3, w4, w5, w6, w7, w8, w9, w10, w11⟩ := hwf
  have hs : u.scheme ≠ "" := by rcases hsch with h | h <;> simp [h]
  have hsd := strNe_data hs
  have hq9 : containsC '#' (queryPartC u) = false := by
    unfold queryPartC
    split
    · simp [containsC, w7]
    · rfl
  have hs9 : containsC '#' u.scheme.data = false := by
    rcases hsch with h | h <;> rw [h] <;> rfl
  unfold urlParse
  by_cases hop : u.opaq = ""
  · by_cases hhp : u.host = "" ∧ u.path = ""
    · have hshape := urlStringC_bareShape hs hop hhp.1 hhp.2 hfrag
      have hhash : containsC '#' (urlStringC u) = false := by
        rw [hshape, containsC_append]
        simp [containsC, hs9, hq9]
      rw [show (urlString u).data = urlStringC u from rfl,
        cutFirst_not_found hhash]
      dsimp only
      rw [hshape, parseGo_scheme_split hsch]
      unfold parseGoAfterScheme
      have hqs := @querySplit_queryPart u [] rfl
      rw [List.nil_append] at hqs
      rw [hqs]
      dsimp only
      rw [if_pos (show ([] : List Char).head? ≠ some '/' by simp), if_pos hsd]
      rw [hop, hhp.1, hhp.2, hfrag]
    · have hhp2 : u.host ≠ "" ∨ u.path ≠ "" := by
        by_cases hh : u.host = ""
        · exact Or.inr (fun hp => hhp ⟨hh, hp⟩)
        · exact Or.inl hh
      have hpath2 : u.path = "" ∨ u.path.data.head? = some '/' := by
        rcases hpath with h | ⟨h1, _⟩
        · exact Or.inl h
        · exact Or.inr h1
      have hshape := urlStringC_hostShape hs hop hhp2 hpath2 hfrag
      have hhash : containsC '#' (urlStringC u) = false := by
        rw [hshape, containsC_append]
        simp [containsC, containsC_append, hs9, hq9, w3, w6]
      rw [show (urlString u).data = urlStringC u from rfl,
        cutFirst_not_found hhash]
      dsimp only
      rw [hshape, parseGo_scheme_split hsch]
      unfold parseGoAfterScheme
      have hassoc : ('/' :: '/' :: (u.host.data ++ (u.path.data ++ queryPartC u)) :
          List Char) = ('/' :: '/' :: (u.host.data ++ u.path.data)) ++ queryPartC u := by
        simp [List.append_assoc]
      rw [hassoc, @querySplit_queryPart u ('/' :: '/' ::
        (u.host.data ++ u.path.data)) (by
          simp [containsC, containsC_append, w2, w5])]
      dsimp only
      rw [if_neg (show ¬(('/' :: '/' :: (u.host.data ++ u.path.data) :
          List Char).head? ≠ some '/') by simp)]
      rw [if_pos (show ((decide (u.scheme.data ≠ []) ||
          !decide (('/' :: '/' :: (u.host.data ++ u.path.data) :
            List Char).take 3 = ['/', '/', '/'])) &&
          decide (('/' :: '/' :: (u.host.data ++ u.path.data) :
            List Char).take 2 = ['/', '/'])) = true by
        simp [hsd])]
      dsimp only
      rcases hpath2 with hp0 | hp1
      · rw [show (('/' :: '/' :: (u.host.data ++ u.path.data) :
            List Char).drop 2) = u.host.data ++ u.path.data from rfl]
        rw [hp0, data_empty, List.append_nil, cutFirst_not_found w1]
        dsimp only
        rw [parseAuthority_id w4]
        rw [hop, hfrag]
        rfl
      · obtain ⟨p2, hp2⟩ : ∃ p2, u.path.data = '/' :: p2 := by
          cases hd : u.path.data with
          | nil => rw [hd] at hp1; exact absurd hp1 (by simp)
          | cons c cs =>
            rw [hd] at hp1
            simp only [List.head?_cons, Option.some.injEq] at hp1
            exact ⟨cs, by rw [hp1]⟩
        rw [show (('/' :: '/' :: (u.host.data ++ u.path.data) :
            List Char).drop 2) = u.host.data ++ u.path.data from rfl]
        rw [hp2, cutFirst_found p2 w1]
        dsimp only
        rw [if_pos rfl, parseAuthority_id w4]
        rw [hop, hfrag]
        exact congrArg Except.ok (goURLExt rfl rfl rfl (by rw [← hp2]) rfl rfl rfl)
  · obtain ⟨hh, hp⟩ := w11 hop
    have hshape := urlStringC_opaqShape hs hop hfrag
    have hhash : containsC '#' (urlStringC u) = false := by
      rw [hshape, containsC_append]
      simp [containsC, containsC_append, hs9, hq9, w9]
    rw [show (urlString u).data = urlStringC u from rfl,
      cutFirst_not_found hhash]
    dsimp only
    rw [hshape, parseGo_scheme_split hsch]
    unfold parseGoAfterScheme
    rw [querySplit_queryPart u w8]
    dsimp only
    rw [if_pos w10, if_pos hsd]
    rw [hh, hp, hfrag]

/-! ## Claim theorems -/

/-- C1 (counterexample): the claim "closing the frontier channel is the only
termination trigger of the crawl loop" is false: from the initial state of
`Crawl`, delivering the seed and then receiving one fatal error makes the
loop return (exited = some false) while the frontier channel was never closed
(closed = false). -/
theorem c1_counterexample :
    crawlRun [CrawlEv.deliver, CrawlEv.fatalErr] =
      some { counter := 1, pendingPub := 0, queued := 1, closed := false,
             exited := some false } := by
  rfl

/-- C1 (amended): in every execution of `Crawl`, the counter is incremented
before the corresponding link is published (so it always equals pending
publishes plus unresolved items and can be zero only with no publish
pending); the frontier channel is closed at most once, only at counter zero;
and closing it is the trigger of every normal (`nil`) termination — though
the loop can also terminate early by returning an error, without the channel
being closed. -/
theorem c1_counter_close_discipline :
    ∀ (evs : List CrawlEv) (s : CrawlSt), crawlRun evs = some s →
      s.counter = s.pendingPub + s.queued ∧
      (s.counter = 0 → s.pendingPub = 0) ∧
      (s.closed = true → s.counter = 0 ∧ s.pendingPub = 0) ∧
      (s.exited = some true → s.closed = true) ∧
      evs.count CrawlEv.closeCh ≤ 1 := by
  intro evs s h
  obtain ⟨hc, hcl, hex⟩ := crawlRunFrom_inv evs crawlInit s h crawlInit_inv
  refine ⟨hc, fun h0 => by omega, fun hcl2 => ?_, hex,
    crawlRunFrom_close_once evs crawlInit s h⟩
  have h1 := hcl hcl2
  exact ⟨h1, by omega⟩

/-- Witness for C1 at the trace deliver / recoverable-error / close / normal
exit. -/
theorem c1_witness :
    (⟨0, 0, 0, true, some true⟩ : CrawlSt).counter =
      (⟨0, 0, 0, true, some true⟩ : CrawlSt).pendingPub +
      (⟨0, 0, 0, true, some true⟩ : CrawlSt).queued ∧
    ((⟨0, 0, 0, true, some true⟩ : CrawlSt).counter = 0 →
      (⟨0, 0, 0, true, some true⟩ : CrawlSt).pendingPub = 0) ∧
    ((⟨0, 0, 0, true, some true⟩ : CrawlSt).closed = true →
      (⟨0, 0, 0, true, some true⟩ : CrawlSt).counter = 0 ∧
      (⟨0, 0, 0, true, some true⟩ : CrawlSt).pendingPub = 0) ∧
    ((⟨0, 0, 0, true, some true⟩ : CrawlSt).exited = some true →
      (⟨0, 0, 0, true, some true⟩ : CrawlSt).closed = true) ∧
    ([CrawlEv.deliver, CrawlEv.recovErr, CrawlEv.closeCh,
      CrawlEv.normalExit].count CrawlEv.closeCh ≤ 1) :=
  c1_counter_close_discipline
    [CrawlEv.deliver, CrawlEv.recovErr, CrawlEv.closeCh, CrawlEv.normalExit]
    ⟨0, 0, 0, true, some true⟩ (by rfl)

/-- C2 (code bug): crawling the one-page site whose seed page links to the
seed itself emits the seed's Page twice: the cache starts empty and the seed
is never entered into it, so the self-link is admitted and the seed is
refetched.  The spec requires exactly one Page for this scenario. -/
theorem c2_seed_self_link_double_fetch :
    (crawlSeq selfLinkSite "http://a.test/" 10).map
        (List.map fun p => urlString p.url) =
      .ok ["http://a.test/", "http://a.test/"] := by
  rfl

/-- C3 (counterexample): a malformed href (here `":"`, which `url.Parse`
rejects with "missing protocol scheme") does not yield "no URL for that
anchor" with extraction continuing: `formatURL` panics and the whole page's
extraction aborts, discarding the later well-formed anchor. -/
theorem c3_counterexample :
    collectLinks dummyURL [⟨"a", [("href", ":"), ("href", "/fine")]⟩] =
      .error "missing protocol scheme" := by
  rfl

/-- C3 (amended): extraction of a page completes without panic exactly when
every `href` of every anchor can be resolved against the base; hrefs that
resolve but are filtered (wrong scheme) yield no URL and extraction
continues, while a single unresolvable href panics and aborts the whole
page's extraction. -/
theorem c3_extraction_ok_iff_hrefs_resolvable :
    ∀ (pageURL : GoURL) (toks : List HTok),
      (collectLinks pageURL toks).isOk = true ↔
        ∀ href ∈ hrefsOf toks, (urlParseRef pageURL href).isOk = true :=
  fun p toks => collectLinksGo_isOk p toks []

/-- C4 (counterexample): a worker whose first fetch fails with a transport
error emits that single error and stops (`return`) with the frontier still
open: the second delivered URL is never processed and the loop did not end by
channel exhaustion. -/
theorem c4_counterexample :
    getPagesRun workerFetchErr [workerURL1, workerURL2] =
      .ok { pages := [], errs := [.transport false], exhausted := false } := by
  rfl

/-- C4 (amended): a worker processes every URL delivered on its frontier and
stops only at channel exhaustion, provided no fetch outcome is fatal for it;
HTTP error statuses (>= 400) and successful pages are processed and the
worker continues, but a transport error or a body read/close failure makes it
emit that error and stop early. -/
theorem c4_worker_drains_frontier_without_fatal :
    ∀ (fetch : String → FetchRes) (urls : List GoURL),
      (∀ u ∈ urls, continuableFetch fetch u = true) →
      (getPagesRun fetch urls).map
          (fun o => (o.exhausted, o.pages.length + o.errs.length)) =
        .ok (true, urls.length) := by
  intro fetch urls
  induction urls with
  | nil => intro _; rfl
  | cons u rest ih =>
    intro h
    have hu := h u (List.mem_cons_self u rest)
    have hres := ih (fun v hv => h v (List.mem_cons_of_mem u hv))
    simp only [getPagesRun]
    cases hf : fetch (urlString u) with
    | getErr t =>
      rw [continuableFetch, hf] at hu
      exact Bool.noConfusion hu
    | resp code copyOk closeOk body =>
      rw [continuableFetch, hf] at hu
      simp only [Bool.or_eq_true, decide_eq_true_eq, Bool.and_eq_true] at hu
      dsimp only
      by_cases h4 : 400 ≤ code
      · rw [if_pos h4]
        cases hr : getPagesRun fetch rest with
        | error e => rw [hr] at hres; exact Except.noConfusion hres
        | ok o =>
          rw [hr] at hres
          simp only [Except.map, Except.ok.injEq, Prod.mk.injEq] at hres
          simp only [Except.map, Except.ok.injEq, Prod.mk.injEq, List.length_cons]
          exact ⟨hres.1, by have := hres.2; omega⟩
      · rw [if_neg h4]
        have hu2 : copyOk = true ∧ closeOk = true ∧ (collectLinks u body).isOk = true := by
          rcases hu with h400 | hok
          · exact absurd h400 h4
          · exact ⟨hok.1.1, hok.1.2, hok.2⟩
        rw [hu2.1, hu2.2.1]
        simp only [Bool.true_eq_false, if_false]
        cases hcol : collectLinks u body with
        | error e => rw [hcol] at hu2; exact Bool.noConfusion hu2.2.2
        | ok links =>
          cases hr : getPagesRun fetch rest with
          | error e => rw [hr] at hres; exact Except.noConfusion hres
          | ok o =>
            rw [hr] at hres
            simp only [Except.map, Except.ok.injEq, Prod.mk.injEq] at hres
            simp only [Except.map, Except.ok.injEq, Prod.mk.injEq, List.length_cons]
            exact ⟨hres.1, by have := hres.2; omega⟩

/-- Witness for C4 on a two-URL frontier with one HTTP 500 and one success. -/
theorem c4_witness :
    (∀ u ∈ [workerURL1, workerURL2], continuableFetch workerFetchOk u = true) ∧
    (getPagesRun workerFetchOk [workerURL1, workerURL2]).map
        (fun o => (o.exhausted, o.pages.length + o.errs.length)) =
      .ok (true, [workerURL1, workerURL2].length) :=
  ⟨by decide, c4_worker_drains_frontier_without_fatal workerFetchOk
    [workerURL1, workerURL2] (by decide)⟩

/-- C5 (confirmed): the result loop absorbs `http-status` and
`transport-timeout` errors — it marks the item complete (`wg.Done`) and keeps
consuming events — while any other error classification makes it return
`fatal` immediately, whatever events are still pending; likewise a failed
`out.Write` of a page (the `output` class, crawler.go lines 119-121) makes it
return immediately. -/
theorem c5_result_loop_error_policy :
    ∀ (seedHost : String) (st : LoopSt) (rest : List LoopEvent) (c : ErrClass)
      (url : GoURL) (links : List GoURL),
      ((c = .httpStatus ∨ c = .netTimeout) →
        resultLoop seedHost st (.errEv c :: rest) =
          resultLoop seedHost ⟨st.cache, st.outstanding - 1⟩ rest) ∧
      resultLoop seedHost st (.errEv .other :: rest) = some (.fatal .other) ∧
      resultLoop seedHost st (.pageEv url links false :: rest) =
        some .writeFail := by
  intro seedHost st rest c url links
  refine ⟨?_, rfl, rfl⟩
  rintro (rfl | rfl) <;> rfl

/-- Witness for C5 with a concrete state: a recoverable error, a fatal
error, and a page whose write fails. -/
theorem c5_witness :
    resultLoop "a.test" ⟨[], 1⟩ [.errEv .httpStatus] =
      resultLoop "a.test" ⟨[], 0⟩ [] ∧
    resultLoop "a.test" ⟨[], 1⟩ [.errEv .other] = some (.fatal .other) ∧
    resultLoop "a.test" ⟨[], 1⟩
        [.pageEv { scheme := "http", host := "a.test", path := "/" } [] false] =
      some .writeFail :=
  ⟨(c5_result_loop_error_policy "a.test" ⟨[], 1⟩ [] ErrClass.httpStatus
      { scheme := "http", host := "a.test", path := "/" } []).1 (Or.inl rfl),
    (c5_result_loop_error_policy "a.test" ⟨[], 1⟩ [] ErrClass.other
      { scheme := "http", host := "a.test", path := "/" } []).2.1,
    (c5_result_loop_error_policy "a.test" ⟨[], 1⟩ [] ErrClass.other
      { scheme := "http", host := "a.test", path := "/" } []).2.2⟩

/-- C6 (confirmed): normalizing `"http://x.test/a#frag"` against any base
yields `"http://x.test/a"` — the fragment is stripped — and the result
coincides with normalizing the fragment-free href, so the two dedup to the
same visited-set entry. -/
theorem c6_fragment_stripped :
    ∀ base : GoURL,
      (formatURL base "http://x.test/a#frag").map (Option.map urlString) =
        .ok (some "http://x.test/a") ∧
      formatURL base "http://x.test/a#frag" = formatURL base "http://x.test/a" := by
  intro base
  exact ⟨rfl, rfl⟩

/-- C7 (confirmed): every URL the extractor keeps has scheme `http` or
`https`, and hrefs with any other scheme (mailto, javascript) yield no URL
for their anchor. -/
theorem c7_scheme_filter :
    (∀ (base : GoURL) (href : String) (u : GoURL),
        formatURL base href = .ok (some u) →
        u.scheme = "http" ∨ u.scheme = "https") ∧
    formatURL dummyURL "mailto:test@test.com" = .ok none ∧
    formatURL dummyURL "javascript:alert(1)" = .ok none := by
  refine ⟨?_, rfl, rfl⟩
  intro base href u h
  unfold formatURL at h
  cases hp : urlParseRef base href with
  | error e => rw [hp] at h; exact Except.noConfusion h
  | ok rel =>
    rw [hp] at h
    dsimp only at h
    by_cases hs : rel.scheme = "http" ∨ rel.scheme = "https"
    · rw [if_pos hs] at h
      obtain rfl : ({ rel with fragment := "" } : GoURL) = u :=
        Option.some.inj (Except.ok.inj h)
      exact hs
    · rw [if_neg hs] at h
      exact Option.noConfusion (Except.ok.inj h)

/-- Witness for C7: the kept URL for href `"http://x.test/a"` has scheme
`http`. -/
theorem c7_witness :
    ({ scheme := "http", host := "x.test", path := "/a" } : GoURL).scheme = "http" ∨
    ({ scheme := "http", host := "x.test", path := "/a" } : GoURL).scheme = "https" :=
  c7_scheme_filter.1 dummyURL "http://x.test/a"
    { scheme := "http", host := "x.test", path := "/a" } (by rfl)

/-- C8 (confirmed): normalization is idempotent on the URLs it produces.
For every URL `u` produced by `formatURL` (from a well-formed page URL),
normalizing `u`'s string form against any base again succeeds, keeps the URL,
and yields the same URL — the same normalized string form, which is the
notion of URL equality the crawler's visited set uses
(`cache[link.String()]`). -/
theorem c8_normalize_idempotent :
    ∀ (base0 : GoURL) (href0 : String) (u : GoURL) (base : GoURL),
      WfURL base0 → formatURL base0 href0 = .ok (some u) →
      (formatURL base (urlString u)).map (Option.map urlString) =
        .ok (some (urlString u)) := by
  intro base0 href0 u base hb h
  have hn := formatURL_normalized hb h
  have hrt := urlParse_roundtrip hn
  set v : GoURL := { u with forceQuery := u.forceQuery && decide (u.rawQuery = "") }
    with hv
  have hn2 : NormalizedURL v := hn
  obtain ⟨hwf2, hsch2, hfrag2, hpath2⟩ := hn2
  have hs2 : v.scheme ≠ "" := by
    have hsu : u.scheme = "http" ∨ u.scheme = "https" := hsch2
    rcases hsu with h2 | h2 <;> simp [h2]
  have h1 : urlParseRef base (urlString u) = .ok (resolveReference base v) := by
    unfold urlParseRef
    rw [hrt]
  have hid : resolvePath v.path.data [] = v.path.data := by
    apply resolvePath_clean_id
    rcases hpath2 with hp | ⟨hp1, hp2⟩
    · left
      rw [hp]
    · exact Or.inr ⟨hp1, hp2⟩
  have h2 : resolveReference base v = v := by
    rw [resolveReference_absCase (Or.inl hs2), if_neg hs2, hid]
  have h3 : formatURL base (urlString u) = .ok (some v) := by
    unfold formatURL
    rw [h1]
    dsimp only
    rw [h2, if_pos hsch2, setFragEmpty hfrag2]
  have h4 : urlString v = urlString u := by
    rw [hv]
    exact congrArg String.mk (urlStringC_fq_canon u)
  rw [h3]
  show Except.ok (some (urlString v)) = Except.ok (some (urlString u))
  rw [h4]

/-- Witness for C8: the normalizer output for `"../../test"` against the
repository's unit-test base renormalizes to itself. -/
theorem c8_witness :
    (formatURL dummyURL (urlString
      { scheme := "http", host := "www.google.com", path := "/test" })).map
        (Option.map urlString) =
      .ok (some (urlString
        { scheme := "http", host := "www.google.com", path := "/test" })) :=
  c8_normalize_idempotent dummyURL "../../test"
    { scheme := "http", host := "www.google.com", path := "/test" } dummyURL
    (by decide) (by rfl)

/-- C9 (code bug): `main` accepts the worker count `-1` (its guard only
rejects exactly zero, despite its own "must be greater than zero" message),
and `Crawl` then starts with zero spawned workers; only zero and non-numeric
values are rejected. -/
theorem c9_negative_workers_accepted :
    mainWorkersCheck "-1" = .ok (-1) ∧
    workersSpawned (-1) = 0 ∧
    (mainWorkersCheck "0").isOk = false ∧
    (mainWorkersCheck "abc").isOk = false := by
  exact ⟨rfl, rfl, by decide, by decide⟩

/-- C10 (confirmed): `Crawl` rejects the raw seed string exactly when
`url.Parse` fails on it; the empty string, a host-less relative path and a
non-http scheme all parse and are accepted as seeds, while a string
`url.Parse` rejects (here `":"`) is refused. -/
theorem c10_seed_checked_only_by_parse :
    (∀ s : String, (crawlSeedCheck s).isOk = (urlParse s).isOk) ∧
    (crawlSeedCheck "").isOk = true ∧
    (crawlSeedCheck "relative/path").isOk = true ∧
    (crawlSeedCheck "ftp://x.test/p").isOk = true ∧
    (urlParse "ftp://x.test/p").map GoURL.scheme = .ok "ftp" ∧
    (urlParse "relative/path").map GoURL.host = .ok "" ∧
    (crawlSeedCheck ":").isOk = false := by
  refine ⟨?_, by decide, by decide, by decide, rfl, rfl, by decide⟩
  intro s
  unfold crawlSeedCheck
  cases urlParse s <;> rfl
